import Mathlib

/-!
Verification of the `inf` single-file block store and B-tree.

The block store implementation (package `inf`, file `block_test.go`, the part
after the test functions) is modelled as pure state, with the backing file
(`RWSC`) embedded as a byte list.  Go `error` returns are modelled as
`Res.err`, Go runtime panics (nil dereference, out-of-range index,
`panic(...)` calls) as `Res.crash`.  Machine integers are modelled as `Nat`
with explicit `% 256` per byte where the code truncates (big-endian
`PutUint16` / `PutUint32`), and signed comparisons that matter are done in
`Int`.
-/

namespace Inf

/-- Outcome of a Go call in the model: normal return, returned `error`,
or runtime panic. -/
inductive Res (α : Type) where
  | ok (a : α)
  | err (msg : String)
  | crash (msg : String)
  deriving Repr, DecidableEq

/-! ## The backing file: a byte list with positioned reads and writes

`writeAt` models `Seek(pos)` + `Write(bs)` on a file: the gap between the
old end-of-file and `pos` is zero-filled, written bytes replace existing
ones, and the file grows as needed.  `byteAt` models reading one byte
(bytes past end-of-file read as 0). -/

def byteAt (d : List Nat) (pos : Nat) : Nat := d.getD pos 0

def writeAt (d : List Nat) (pos : Nat) (bs : List Nat) : List Nat :=
  (d.take pos ++ List.replicate (pos - d.length) 0) ++ bs ++ d.drop (pos + bs.length)

def readAt (d : List Nat) (pos n : Nat) : List Nat :=
  (List.range n).map (fun i => byteAt d (pos + i))

/-- `binary.BigEndian.PutUint16` (with Go's implicit truncation to 16 bits). -/
def pu16 (v : Nat) : List Nat := [v / 256 % 256, v % 256]

/-- `binary.BigEndian.PutUint32` (with Go's implicit truncation to 32 bits). -/
def pu32 (v : Nat) : List Nat :=
  [v / 16777216 % 256, v / 65536 % 256, v / 256 % 256, v % 256]

/-- `binary.BigEndian.Uint16` read from the file. -/
def ru16 (d : List Nat) (pos : Nat) : Nat := byteAt d pos * 256 + byteAt d (pos + 1)

/-- `binary.BigEndian.Uint32` read from the file. -/
def ru32 (d : List Nat) (pos : Nat) : Nat :=
  ((byteAt d pos * 256 + byteAt d (pos + 1)) * 256 + byteAt d (pos + 2)) * 256
    + byteAt d (pos + 3)

/-! ## Block store constants (`block_test.go`) -/

def magicSize : Nat := 16
def metaSize : Nat := 104
def dataStartAt : Nat := 128
def TypeEmpty : Nat := 0
def TypeSuper : Nat := 1
def TypeSingle : Nat := 2
def TypeChained : Nat := 3

/-- `magicNumber = [16]byte{'f', '.', 'b', 'l', 'k'}` (rest zero). -/
def magicNumber : List Nat := [102, 46, 98, 108, 107] ++ List.replicate 11 0

/-- `V010000`: six bytes holding big-endian 1.0.0. -/
def V010000 : List Nat := [0, 1, 0, 0, 0, 0]

/-- In-memory `Block` (Go struct `Block`).  `ty` is the Go field `Type`
(renamed because `Type` is a Lean keyword). -/
structure Block where
  ty : Nat
  Next : Nat
  Data : List Nat
  size : Nat
  idx : Nat
  allocate : Bool
  deriving Repr, DecidableEq

/-- The `blockStore` struct together with its backing file. -/
structure BlockStore where
  v : List Nat
  blockSize : Nat
  freeHead : Nat
  freeTail : Nat
  total : Nat
  prepared : Bool
  disk : List Nat
  deriving Repr, DecidableEq

def BlockStore.DataSize (s : BlockStore) : Nat := s.blockSize - 7

def BlockStore.blockAt (s : BlockStore) (idx : Nat) : Nat :=
  dataStartAt + s.blockSize * idx

def errNotPrepared : String := "you should call Open or Create before any operation"

/-- The 104 metadata bytes written by `syncMetaData`.  Bytes 20..104 are
reserved and stay zero (the pooled buffer is only ever written by
`syncMetaData` itself, which never sets them). -/
def metaBytes (s : BlockStore) : List Nat :=
  pu16 s.blockSize ++ pu32 s.freeHead ++ pu32 s.freeTail ++ pu32 s.total
    ++ s.v ++ List.replicate 84 0

/-- `syncMetaData`: seek to offset 16 (`magicSize`) and write the metadata
record. -/
def BlockStore.syncMetaData (s : BlockStore) : BlockStore :=
  { s with disk := writeAt s.disk magicSize (metaBytes s) }

/-- `putPage(idx, t, next, data)`: build a block image and write it at
`blockAt idx`.  The `next` field is written (at bytes 3..7) only for
`TypeChained`; for every other type only the 3 header bytes precede the
data.  Only `hl + len(data)` bytes are written. -/
def BlockStore.putPage (s : BlockStore) (idx t next : Nat) (data : List Nat) :
    Res BlockStore :=
  let hl : Nat := if t = TypeChained then 7 else 3
  if (data.length : Int) > (s.blockSize : Int) - (hl : Int) then
    .err "max user data length exceeded"
  else
    let header := [t] ++ pu16 data.length ++ (if t = TypeChained then pu32 next else [])
    .ok { s with disk := writeAt s.disk (s.blockAt idx) (header ++ data) }

/-- `Create(v, blockSize)` given the initial content of the byte store
(the factory result).  Fails when the byte store is non-empty; otherwise
writes magic, metadata and the super block, and marks the store prepared. -/
def createOn (disk0 : List Nat) (v : List Nat) (blockSize : Nat) : Res BlockStore :=
  let s0 : BlockStore :=
    { v := v, blockSize := blockSize, freeHead := 0, freeTail := 0, total := 0,
      prepared := false, disk := disk0 }
  if disk0.length ≠ 0 then .err "rwsc exists"
  else
    let s1 := { s0 with disk := writeAt s0.disk 0 magicNumber }
    let s2 := s1.syncMetaData
    match s2.putPage 0 TypeSuper 0 [] with
    | .ok s3 => .ok { s3 with prepared := true }
    | .err m => .err m
    | .crash m => .crash m

/-- `Create` on an empty byte store. -/
def create (v : List Nat) (blockSize : Nat) : Res BlockStore :=
  createOn [] v blockSize

/-- `Erase(idx)`: refuse the super block; overwrite block `idx` with an
Empty block; if the free list has a tail, overwrite the tail as an Empty
block passing `idx` as `next` (note `putPage` ignores `next` for
non-chained blocks); update `freeTail` and `freeHead`; flush metadata. -/
def BlockStore.erase (s : BlockStore) (idx : Nat) : Res BlockStore :=
  if s.prepared = false then .err errNotPrepared
  else if idx = 0 then .err "super block can not be erased"
  else
    match s.putPage idx TypeEmpty 0 [] with
    | .err m => .err m
    | .crash m => .crash m
    | .ok s1 =>
      match (if s1.freeTail ≠ 0 then s1.putPage s1.freeTail TypeEmpty idx [] else .ok s1) with
      | .err m => .err m
      | .crash m => .crash m
      | .ok s2 =>
        let s3 := { s2 with freeTail := idx,
                            freeHead := if s2.freeHead = 0 then idx else s2.freeHead }
        .ok s3.syncMetaData

/-- `nextFreeBlock(freeIdx)`: read the first 7 bytes of the block; panic
(`"not a free page"`) unless its type byte is Empty; return bytes 3..7 as
the next free index. -/
def BlockStore.nextFreeBlock (s : BlockStore) (freeIdx : Nat) : Res Nat :=
  if byteAt s.disk (s.blockAt freeIdx) ≠ TypeEmpty then .crash "not a free page"
  else .ok (ru32 s.disk (s.blockAt freeIdx + 3))

/-- `count = int(math.Ceil(float64(lenInBytes) / float64(DataSize())))`,
for `DataSize > 0` (the float computation is exact in that range). -/
def acquireCount (s : BlockStore) (lenInBytes : Nat) : Nat :=
  (lenInBytes + s.DataSize - 1) / s.DataSize

/-- The first loop of `Acquire`: walk the free list from `freeIdx`,
planning one reused block per iteration.  `rem` is `count - i`; the loop
breaks when the index is 0 or `total+1`, or when `count` blocks are
planned.  The planned `Next` is the on-disk successor, rewritten to 0 for
the overall last block and to `total+1` when the free list runs out
mid-chain. -/
def reuseLoop (s : BlockStore) (ty : Nat) : Nat → Nat → Res (List Block)
  | 0, _ => .ok []
  | rem + 1, freeIdx =>
    if freeIdx = 0 ∨ freeIdx = s.total + 1 then .ok []
    else
      match s.nextFreeBlock freeIdx with
      | .err m => .err m
      | .crash m => .crash m
      | .ok n0 =>
        let nx := if rem = 0 then 0 else if n0 = 0 then s.total + 1 else n0
        match reuseLoop s ty rem nx with
        | .err m => .err m
        | .crash m => .crash m
        | .ok rest =>
          .ok ({ ty := ty, Next := nx, Data := [], size := s.DataSize,
                 idx := freeIdx, allocate := false } :: rest)

/-- The second loop of `Acquire`: plan `k` fresh (`allocate`) blocks with
indices `startIdx, startIdx+1, ...`; the overall last block's `Next` is 0. -/
def allocLoop (s : BlockStore) (ty : Nat) : Nat → Nat → List Block
  | 0, _ => []
  | k + 1, startIdx =>
    { ty := ty, Next := if k = 0 then 0 else startIdx + 1, Data := [],
      size := s.blockSize - 7, idx := startIdx, allocate := true }
      :: allocLoop s ty k (startIdx + 1)

/-- `Acquire(lenInBytes)`.  Note the source types every planned block
`TypeChained` whenever `count > 0` (the `TypeSingle` initialisation is
dead for any positive count). -/
def BlockStore.acquire (s : BlockStore) (lenInBytes : Nat) : Res (List Block) :=
  if s.prepared = false then .err errNotPrepared
  else
    let count := acquireCount s lenInBytes
    let ty := if count > 0 then TypeChained else TypeSingle
    match reuseLoop s ty count s.freeHead with
    | .err m => .err m
    | .crash m => .crash m
    | .ok reused => .ok (reused ++ allocLoop s ty (count - reused.length) (s.total + 1))

/-- The loop body of `Put`: validate each block (no Empty blocks, Super
only at index 0, non-allocate blocks must match the running free head),
write it, bump `total` for allocate blocks, and between consecutive
blocks either clear the free pointers (next block is fresh) or advance
the running free head by re-reading the block at `fh` — which `putPage`
has just overwritten. -/
def putLoop (s : BlockStore) (fh : Nat) : List Block → Res (BlockStore × Nat)
  | [] => .ok (s, fh)
  | b :: rest =>
    if b.ty = TypeEmpty then .err "cannot put free block"
    else if b.ty = TypeSuper ∧ b.idx ≠ 0 then .err "super block must at position 0"
    else if b.allocate = false ∧ b.idx ≠ fh then .err "put must begin with free head"
    else
      match s.putPage b.idx b.ty b.Next b.Data with
      | .err m => .err m
      | .crash m => .crash m
      | .ok s1 =>
        let s2 := if b.allocate then { s1 with total := s1.total + 1 } else s1
        match rest with
        | [] => .ok (s2, fh)
        | b2 :: _ =>
          if b2.allocate then putLoop { s2 with freeTail := 0 } 0 rest
          else
            match s2.nextFreeBlock fh with
            | .err m => .err m
            | .crash m => .crash m
            | .ok fh2 => putLoop s2 fh2 rest

/-- `Put(pages)`: run the loop, store the running free head back, clear
`freeTail` when the free list emptied, flush metadata. -/
def BlockStore.putBlocks (s : BlockStore) (pages : List Block) : Res BlockStore :=
  if s.prepared = false then .err errNotPrepared
  else
    match putLoop s s.freeHead pages with
    | .err m => .err m
    | .crash m => .crash m
    | .ok (s1, fh) =>
      let s2 := { s1 with freeHead := fh }
      let s3 := if s2.freeHead = 0 then { s2 with freeTail := 0 } else s2
      .ok s3.syncMetaData

/-- `Get(idx, &block)`: read one block image and parse it.  `Next` is
read only for chained blocks (the caller's fresh `Block` has `Next = 0`).
The data copy `bs[hl : hl+size]` panics when it runs past the block
buffer. -/
def BlockStore.getBlock (s : BlockStore) (idx : Nat) : Res Block :=
  if s.prepared = false then .err errNotPrepared
  else
    let pos := s.blockAt idx
    let t := byteAt s.disk pos
    let size := ru16 s.disk (pos + 1)
    let hl : Nat := if t = TypeChained then 7 else 3
    if s.blockSize < hl + size then .crash "slice bounds out of range"
    else
      .ok { ty := t,
            Next := if t = TypeChained then ru32 s.disk (pos + 3) else 0,
            Data := readAt s.disk (pos + hl) size,
            size := size, idx := idx, allocate := false }

/-- The chain-following loop of `From`, with explicit fuel standing for
the (unbounded) iteration count of the Go `for` loop; any terminating run
of the Go loop is reproduced by a large enough fuel. -/
def fromAux (s : BlockStore) : Nat → Nat → Res (List Block)
  | 0, _ => .crash "fuel exhausted"
  | fuel + 1, i =>
    match s.getBlock i with
    | .err m => .err m
    | .crash m => .crash m
    | .ok b =>
      if b.ty ≠ TypeChained then .ok [b]
      else if b.Next ≠ 0 then
        match fromAux s fuel b.Next with
        | .err m => .err m
        | .crash m => .crash m
        | .ok rest => .ok (b :: rest)
      else .ok [b]

/-- `From(idx)`: follow the chain starting at `idx`.  A terminating chain
has at most `total + 1` blocks, so `total + 2` fuel is always enough. -/
def BlockStore.fromChain (s : BlockStore) (idx : Nat) : Res (List Block) :=
  fromAux s (s.total + 2) idx

/-- `WriteTo(w, idx)`: `From(idx)`, then write each block's payload in
order; the second component is everything written to `w`. -/
def BlockStore.writeTo (s : BlockStore) (idx : Nat) : Res (List Block × List Nat) :=
  match s.fromChain idx with
  | .err m => .err m
  | .crash m => .crash m
  | .ok bs => .ok (bs, (bs.map Block.Data).flatten)

/-- The on-disk free list of `s` is exactly the index list `l`: starting
at `h`, each listed block is Empty on disk, its index is positive and at
most `total`, its bytes 3..7 give the next entry, and the list ends where
the head becomes 0. -/
def isFreeChain (s : BlockStore) : Nat → List Nat → Bool
  | h, [] => h = 0
  | h, i :: rest =>
    h = i ∧ h ≠ 0 ∧ h ≤ s.total ∧ byteAt s.disk (s.blockAt h) = TypeEmpty
      ∧ isFreeChain s (ru32 s.disk (s.blockAt h + 3)) rest

/-! ## Generic facts about the byte-store model -/

theorem length_writeAt (d : List Nat) (p : Nat) (bs : List Nat) :
    (writeAt d p bs).length = max d.length (p + bs.length) := by
  simp only [writeAt, List.length_append, List.length_take, List.length_replicate,
    List.length_drop]
  omega

theorem byteAt_writeAt (d : List Nat) (p : Nat) (bs : List Nat) (q : Nat) :
    byteAt (writeAt d p bs) q =
      if p ≤ q ∧ q < p + bs.length then bs.getD (q - p) 0 else byteAt d q := by
  have lt : (d.take p).length = min p d.length := List.length_take ..
  simp only [byteAt, writeAt, List.append_assoc, List.getD_eq_getElem?_getD]
  rcases Nat.lt_or_ge q p with h2 | h2
  · rw [if_neg (by omega)]
    rcases Nat.lt_or_ge q (min p d.length) with h1 | h1
    · rw [List.getElem?_append_left (by omega), List.getElem?_take, if_pos (by omega)]
    · have hd : d.length ≤ q := by omega
      rw [List.getElem?_append_right (by omega), List.getElem?_append_left
        (by simp only [lt, List.length_replicate]; omega), List.getElem?_replicate,
        if_pos (by simp only [lt]; omega), List.getElem?_eq_none hd]
      rfl
  · rw [List.getElem?_append_right (by omega),
      List.getElem?_append_right (by simp only [lt, List.length_replicate]; omega)]
    have hidx : q - (d.take p).length - (List.replicate (p - d.length) (0 : Nat)).length
        = q - p := by
      simp only [lt, List.length_replicate]
      omega
    rw [hidx]
    rcases Nat.lt_or_ge q (p + bs.length) with h3 | h3
    · rw [List.getElem?_append_left (by omega), if_pos (by omega)]
    · rw [List.getElem?_append_right (by omega), if_neg (by omega),
        List.getElem?_drop]
      congr 2
      omega

theorem byteAt_writeAt_lt (d : List Nat) (p : Nat) (bs : List Nat) (q : Nat)
    (h : q < p) : byteAt (writeAt d p bs) q = byteAt d q := by
  rw [byteAt_writeAt, if_neg (by omega)]

theorem byteAt_writeAt_ge (d : List Nat) (p : Nat) (bs : List Nat) (q : Nat)
    (h : p + bs.length ≤ q) : byteAt (writeAt d p bs) q = byteAt d q := by
  rw [byteAt_writeAt, if_neg (by omega)]

theorem byteAt_writeAt_in (d : List Nat) (p : Nat) (bs : List Nat) (q : Nat)
    (h1 : p ≤ q) (h2 : q < p + bs.length) :
    byteAt (writeAt d p bs) q = bs.getD (q - p) 0 := by
  rw [byteAt_writeAt, if_pos ⟨h1, h2⟩]

theorem length_readAt (d : List Nat) (pos n : Nat) : (readAt d pos n).length = n := by
  simp [readAt]

/-! ## Projection helpers for stating concrete facts about `Res` values -/

def defaultStore : BlockStore :=
  { v := [], blockSize := 0, freeHead := 0, freeTail := 0, total := 0,
    prepared := false, disk := [] }

instance : Inhabited BlockStore := ⟨defaultStore⟩

def Res.isOk {α : Type} : Res α → Bool
  | .ok _ => true
  | _ => false

def storeOf (r : Res BlockStore) : BlockStore :=
  match r with
  | .ok s => s
  | _ => defaultStore

def blocksOf (r : Res (List Block)) : List Block :=
  match r with
  | .ok l => l
  | _ => []

theorem getD_readAt (d : List Nat) (pos n i : Nat) (h : i < n) :
    (readAt d pos n).getD i 0 = byteAt d (pos + i) := by
  simp only [readAt, List.getD_eq_getElem?_getD, List.getElem?_map]
  rw [List.getElem?_range h]
  rfl

theorem readAt_eq_of_byteAt (d : List Nat) (pos : Nat) (bs : List Nat)
    (h : ∀ i < bs.length, byteAt d (pos + i) = bs.getD i 0) :
    readAt d pos bs.length = bs := by
  apply List.ext_getElem
  · simp [length_readAt]
  · intro i h1 h2
    rw [length_readAt] at h1
    have hb := h i h1
    simp only [readAt, List.getElem_map, List.getElem_range]
    rw [hb, List.getD_eq_getElem?_getD, List.getElem?_eq_getElem h1]
    rfl

/-! ## `Create` (claim C7) -/

/-- The metadata record written by `Create(v, bs)`. -/
def createMeta (v : List Nat) (bs : Nat) : List Nat :=
  pu16 bs ++ pu32 0 ++ pu32 0 ++ pu32 0 ++ v ++ List.replicate 84 0

/-- The file content produced by `Create(v, bs)` (for `bs ≥ 3`). -/
def createDisk (v : List Nat) (bs : Nat) : List Nat :=
  writeAt (writeAt (writeAt [] 0 magicNumber) magicSize (createMeta v bs))
    dataStartAt [TypeSuper, 0, 0]

theorem createMeta_length (v : List Nat) (bs : Nat) (hv : v.length = 6) :
    (createMeta v bs).length = 104 := by
  simp [createMeta, pu16, pu32, hv]

theorem createDisk_meta_byte (v : List Nat) (bs : Nat) (hv : v.length = 6) (q : Nat)
    (hq1 : 16 ≤ q) (hq2 : q < 120) :
    byteAt (createDisk v bs) q = (createMeta v bs).getD (q - 16) 0 := by
  unfold createDisk
  rw [byteAt_writeAt_lt _ _ _ _ (by simp only [dataStartAt]; omega),
    byteAt_writeAt_in _ _ _ _ (by simpa [magicSize] using hq1)
      (by rw [createMeta_length v bs hv]; simp only [magicSize]; omega)]
  rfl

theorem create_eq (v : List Nat) (bs : Nat) (hbs : 3 ≤ bs) :
    create v bs = .ok
      { v := v, blockSize := bs, freeHead := 0, freeTail := 0, total := 0,
        prepared := true, disk := createDisk v bs } := by
  have h3 : ¬ ((0 : Int) > (bs : Int) - 3) := by omega
  simp [create, createOn, BlockStore.syncMetaData, BlockStore.putPage, BlockStore.blockAt,
    TypeSuper, TypeChained, pu16, h3, createDisk, createMeta, metaBytes]

theorem createDisk_length (v : List Nat) (bs : Nat) (hv : v.length = 6) :
    (createDisk v bs).length = 131 := by
  unfold createDisk
  rw [length_writeAt, length_writeAt, length_writeAt, createMeta_length v bs hv]
  simp [magicNumber, magicSize, dataStartAt]

/-- What `Create(v, bs)` actually produces, proved for any 6-byte version
and any `bs ≥ 3` (for `bs < 3` the super-block write fails).  `Create`
writes the 16 magic bytes, the 104 metadata bytes and only the 3-byte
header of the super block, so the file ends at 131 bytes — not at
`128 + bs`. -/
theorem create_spec (v : List Nat) (bs : Nat) (hv : v.length = 6) (hbs : 3 ≤ bs) :
    ∃ s', create v bs = .ok s' ∧ s'.disk.length = 131 ∧ s'.total = 0 ∧
      s'.freeHead = 0 ∧ s'.freeTail = 0 ∧ s'.prepared = true ∧
      s'.blockSize = bs ∧ s'.v = v ∧
      ru32 s'.disk 18 = 0 ∧ ru32 s'.disk 22 = 0 ∧ ru32 s'.disk 26 = 0 ∧
      byteAt s'.disk dataStartAt = TypeSuper := by
  refine ⟨_, create_eq v bs hbs, createDisk_length v bs hv, rfl, rfl, rfl, rfl, rfl, rfl,
    ?_, ?_, ?_, ?_⟩
  · simp only [ru32, createDisk_meta_byte v bs hv 18 (by omega) (by omega),
      createDisk_meta_byte v bs hv 19 (by omega) (by omega),
      createDisk_meta_byte v bs hv 20 (by omega) (by omega),
      createDisk_meta_byte v bs hv 21 (by omega) (by omega)]
    simp [createMeta, pu16, pu32]
  · simp only [ru32, createDisk_meta_byte v bs hv 22 (by omega) (by omega),
      createDisk_meta_byte v bs hv 23 (by omega) (by omega),
      createDisk_meta_byte v bs hv 24 (by omega) (by omega),
      createDisk_meta_byte v bs hv 25 (by omega) (by omega)]
    simp [createMeta, pu16, pu32]
  · simp only [ru32, createDisk_meta_byte v bs hv 26 (by omega) (by omega),
      createDisk_meta_byte v bs hv 27 (by omega) (by omega),
      createDisk_meta_byte v bs hv 28 (by omega) (by omega),
      createDisk_meta_byte v bs hv 29 (by omega) (by omega)]
    simp [createMeta, pu16, pu32]
  · unfold createDisk
    rw [byteAt_writeAt_in _ dataStartAt _ dataStartAt (by omega) (by simp)]
    rfl

set_option maxRecDepth 10000 in
/-- C7 (counterexample): after `Create(V010000, 512)` on an empty byte
store, the backing file's size is 131 bytes — `Create` writes only the
3-byte super-block header — not `128 + 512` as the claim states. -/
theorem C7_counterexample :
    (create V010000 512).isOk = true ∧
    (storeOf (create V010000 512)).disk.length = 131 ∧ (131 : Nat) ≠ 128 + 512 := by
  decide

/-- C7 (amended): after `Create(v, bs)` succeeds on an empty byte store,
the backing file's size equals 131 (16 magic bytes + 104 metadata bytes +
the 3-byte super-block header; the super block's body is not written),
the persisted `total` equals 0 and the persisted free list is empty
(`freeHead = 0` and `freeTail = 0`, both in memory and on disk at
metadata offsets 2..10). -/
theorem C7_amended (v : List Nat) (bs : Nat) (hv : v.length = 6) (hbs : 3 ≤ bs) :
    ∃ s', create v bs = .ok s' ∧ s'.disk.length = 131 ∧ s'.total = 0 ∧
      s'.freeHead = 0 ∧ s'.freeTail = 0 ∧
      ru32 s'.disk 18 = 0 ∧ ru32 s'.disk 22 = 0 ∧ ru32 s'.disk 26 = 0 := by
  obtain ⟨s', h1, h2, h3, h4, h5, _, _, _, h9, h10, h11, _⟩ := create_spec v bs hv hbs
  exact ⟨s', h1, h2, h3, h4, h5, h9, h10, h11⟩

/-- C7 (witness): the amended statement instantiated at
`Create(V010000, 512)`. -/
theorem C7_witness :
    V010000.length = 6 ∧ 3 ≤ 512 ∧
    (∃ s', create V010000 512 = .ok s' ∧ s'.disk.length = 131 ∧ s'.total = 0 ∧
      s'.freeHead = 0 ∧ s'.freeTail = 0 ∧
      ru32 s'.disk 18 = 0 ∧ ru32 s'.disk 22 = 0 ∧ ru32 s'.disk 26 = 0) :=
  ⟨rfl, by omega, C7_amended V010000 512 rfl (by omega)⟩

set_option maxRecDepth 10000 in
/-- C8: `Acquire(300)` on a fresh `Create(V010000, 512)` store computes
`count = 1` but still types the single block `TypeChained`, because the
source guards the `TypeChained` override with `count > 0` instead of
`count > 1` (leaving the `ty := TypeSingle` initialisation dead).  The
claim says the block is `TypeSingle`. -/
theorem C8_thm :
    (storeOf (create V010000 512)).acquire 300 =
      .ok [{ ty := TypeChained, Next := 0, Data := [], size := 505, idx := 1,
             allocate := true }] ∧
    TypeChained ≠ TypeSingle := by
  decide

/-! ## Claim C1: the `Erase` free-list `next` field

Scenario (blockSize 16, the 512-byte scenario behaves identically):
put a 3-block chain, then `Erase(1)`, `Erase(2)`.  `putPage` writes the
`next` parameter only for `TypeChained` blocks, so `Erase` never writes
the free-list `next` field of an Empty block: bytes 3..7 keep the stale
`next` of the chained block that used to live there. -/

def c1Store0 : BlockStore := storeOf (create V010000 16)
def c1Plan : List Block := blocksOf (c1Store0.acquire 27)
def c1Store1 : BlockStore := storeOf (c1Store0.putBlocks c1Plan)
def c1Store2 : BlockStore := storeOf (c1Store1.erase 1)
def c1Store3 : BlockStore := storeOf (c1Store2.erase 2)

set_option maxRecDepth 10000 in
/-- C1: after a 3-block `Put` and `Erase(1)`, `Erase(2)` on a prepared
`Create(V010000, 16)` store, the metadata does read `freeHead = 1`,
`freeTail = 2`, but `Erase` left block 1's on-disk next field (bytes
3..7) at the stale value 2 already before `Erase(2)` ran (the claim says
`Erase` writes 0 there), and block 2's next field reads 3 — the stale
chained `next` — not 0 as the claim states.  The tail rewrite of
`Erase(2)` also did not write block 1's next field: it passes `next = 1`
to `putPage`, which drops it for `TypeEmpty`. -/
theorem C1_thm :
    (c1Store0.putBlocks c1Plan).isOk = true ∧
    (c1Store1.erase 1).isOk = true ∧ (c1Store2.erase 2).isOk = true ∧
    c1Store3.freeHead = 1 ∧ c1Store3.freeTail = 2 ∧
    byteAt c1Store3.disk (c1Store3.blockAt 1) = TypeEmpty ∧
    byteAt c1Store3.disk (c1Store3.blockAt 2) = TypeEmpty ∧
    ru32 c1Store2.disk (c1Store2.blockAt 1 + 3) = 2 ∧
    ru32 c1Store3.disk (c1Store3.blockAt 2 + 3) = 3 := by
  decide

/-! ## Claim C5: a fully valid reuse plan makes `Put` panic

After erasing blocks 1 and 2 of a 2-block chain, the on-disk free list
happens to be perfectly formed (1 → 2 → 0).  `Acquire(18)` plans both
blocks for reuse from the head in order; the plan satisfies every
condition of the claim.  `Put` writes block 1 and then advances the
running free head by calling `nextFreeBlock(1)` — re-reading the block it
has just overwritten with a chained block — and panics
`"not a free page"`. -/

def c5Store0 : BlockStore := storeOf (create V010000 16)
def c5Plan1 : List Block := blocksOf (c5Store0.acquire 18)
def c5Store1 : BlockStore :=
  storeOf (c5Store0.putBlocks (c5Plan1.map (fun b => { b with Data := [7] })))
def c5Store2 : BlockStore := storeOf ((storeOf (c5Store1.erase 1)).erase 2)
def c5Plan2 : List Block := blocksOf (c5Store2.acquire 18)
def c5Put2 : List Block := c5Plan2.map (fun b => { b with Data := [9] })

set_option maxRecDepth 10000 in
/-- C5: on a store whose free list is the well-formed chain `[1, 2]`,
`Acquire(18)` plans exactly the two free blocks for reuse, in allocator
order from the head; no block is Empty, none is a Super block, and every
non-allocate index equals the running free head.  The claim says such a
plan passes validation, but `Put` panics with `"not a free page"`. -/
theorem C5_thm :
    c5Plan2.map (fun b => (b.idx, b.allocate, b.ty)) =
      [(1, false, TypeChained), (2, false, TypeChained)] ∧
    c5Store2.freeHead = 1 ∧ c5Store2.freeTail = 2 ∧
    isFreeChain c5Store2 c5Store2.freeHead [1, 2] = true ∧
    c5Store2.putBlocks c5Put2 = .crash "not a free page" := by
  decide

/-! ## Claim C6: `freeHead == 0 ⇔ freeTail == 0`

The equivalence is proved as part of a slightly stronger invariant: the
type byte of block 0 on disk is never `TypeEmpty` (block 0 is the super
block; `Erase` refuses index 0 and `Put` validates every written type
against `TypeEmpty`), and the version is 6 bytes (a Go type invariant:
`version` is `[6]byte`).  Both extras are needed: `Put` advances the
running free head with `nextFreeBlock`, which can only succeed at
index 0 if block 0 were Empty, and `syncMetaData`'s write must stay
below offset 128. -/

def metaInv (s : BlockStore) : Prop :=
  (s.freeHead = 0 ↔ s.freeTail = 0) ∧ byteAt s.disk dataStartAt ≠ TypeEmpty
    ∧ s.v.length = 6

instance (s : BlockStore) : Decidable (metaInv s) := by
  unfold metaInv
  infer_instance

/-- The bytes `putPage` writes at `blockAt idx`. -/
def pageImage (t next : Nat) (data : List Nat) : List Nat :=
  ([t] ++ pu16 data.length ++ (if t = TypeChained then pu32 next else [])) ++ data

theorem putPage_ok (s : BlockStore) (idx t next : Nat) (data : List Nat)
    (s1 : BlockStore) (h : s.putPage idx t next data = .ok s1) :
    s1 = { s with disk := writeAt s.disk (s.blockAt idx) (pageImage t next data) }
      ∧ (data.length : Int)
          ≤ (s.blockSize : Int) - (if t = TypeChained then (7 : Nat) else 3) := by
  simp only [BlockStore.putPage] at h
  by_cases hc : (data.length : Int)
      > (s.blockSize : Int) - (((if t = TypeChained then 7 else 3) : Nat) : Int)
  · rw [if_pos hc] at h
    exact absurd h (by simp)
  · rw [if_neg hc] at h
    injection h with h2
    refine ⟨?_, by omega⟩
    rw [← h2]
    rfl

theorem putPage_ok_blockSize_ge (s : BlockStore) (idx t next : Nat) (data : List Nat)
    (s1 : BlockStore) (h : s.putPage idx t next data = .ok s1) : 3 ≤ s.blockSize := by
  have h2 := (putPage_ok s idx t next data s1 h).2
  by_cases ht : t = TypeChained <;> simp [ht] at h2 <;> omega

theorem byte0_pageImage_ne (s : BlockStore) (idx t next : Nat) (data : List Nat)
    (hidx : idx ≠ 0) (hbs : 1 ≤ s.blockSize) :
    byteAt (writeAt s.disk (s.blockAt idx) (pageImage t next data)) dataStartAt
      = byteAt s.disk dataStartAt := by
  refine byteAt_writeAt_lt _ _ _ _ ?_
  simp only [BlockStore.blockAt]
  have h1 : 1 ≤ idx := by omega
  nlinarith

theorem byte0_pageImage_zero (s : BlockStore) (t next : Nat) (data : List Nat) :
    byteAt (writeAt s.disk (s.blockAt 0) (pageImage t next data)) dataStartAt = t := by
  have hz : s.blockAt 0 = dataStartAt := by simp [BlockStore.blockAt]
  rw [hz, byteAt_writeAt_in _ _ _ dataStartAt (by omega) (by simp [pageImage])]
  simp [pageImage]

theorem syncMetaData_byte0 (s : BlockStore) (hv : s.v.length = 6) :
    byteAt s.syncMetaData.disk dataStartAt = byteAt s.disk dataStartAt := by
  unfold BlockStore.syncMetaData
  refine byteAt_writeAt_ge _ _ _ _ ?_
  simp [metaBytes, pu16, pu32, hv, magicSize, dataStartAt]

/-- The loop invariant of `Put`: in any successful run, whenever the
running free head is nonzero the stored `freeTail` is nonzero, and block
0\'s type byte stays non-Empty (every written type is validated against
`TypeEmpty`). -/
theorem putLoop_inv (pages : List Block) (s : BlockStore) (fh : Nat)
    (s1 : BlockStore) (fh1 : Nat)
    (hok : putLoop s fh pages = .ok (s1, fh1))
    (htail : fh ≠ 0 → s.freeTail ≠ 0)
    (hb0 : byteAt s.disk dataStartAt ≠ TypeEmpty) :
    (fh1 ≠ 0 → s1.freeTail ≠ 0) ∧ byteAt s1.disk dataStartAt ≠ TypeEmpty
      ∧ s1.v = s.v ∧ s1.blockSize = s.blockSize ∧ s1.prepared = s.prepared
      ∧ s1.freeHead = s.freeHead := by
  induction pages generalizing s fh with
  | nil =>
    rw [putLoop] at hok
    injection hok with hok
    injection hok with h1 h2
    subst h1; subst h2
    exact ⟨htail, hb0, rfl, rfl, rfl, rfl⟩
  | cons b rest ih =>
    rw [putLoop] at hok
    by_cases h1 : b.ty = TypeEmpty
    · rw [if_pos h1] at hok
      exact absurd hok (by simp)
    rw [if_neg h1] at hok
    by_cases h2 : b.ty = TypeSuper ∧ b.idx ≠ 0
    · rw [if_pos h2] at hok
      exact absurd hok (by simp)
    rw [if_neg h2] at hok
    by_cases h3 : b.allocate = false ∧ b.idx ≠ fh
    · rw [if_pos h3] at hok
      exact absurd hok (by simp)
    rw [if_neg h3] at hok
    rcases hpp : s.putPage b.idx b.ty b.Next b.Data with sp | m | m
    rotate_left
    · rw [hpp] at hok
      exact absurd hok (by simp)
    · rw [hpp] at hok
      exact absurd hok (by simp)
    rw [hpp] at hok
    obtain ⟨rfl, -⟩ := putPage_ok s b.idx b.ty b.Next b.Data sp hpp
    have hb0p : byteAt (writeAt s.disk (s.blockAt b.idx) (pageImage b.ty b.Next b.Data))
        dataStartAt ≠ TypeEmpty := by
      by_cases hbi : b.idx = 0
      · rw [hbi, byte0_pageImage_zero]
        exact h1
      · rw [byte0_pageImage_ne s b.idx b.ty b.Next b.Data hbi
          (by have := putPage_ok_blockSize_ge s b.idx b.ty b.Next b.Data _ hpp; omega)]
        exact hb0
    by_cases hal : b.allocate = true
    all_goals simp only [hal, if_pos, if_neg, if_true, if_false, Bool.false_eq_true] at hok
    all_goals rcases rest with _ | ⟨b2, rest2⟩
    · injection hok with hok
      injection hok with he1 he2
      subst he2
      rw [← he1]
      exact ⟨fun hz => htail hz, hb0p, rfl, rfl, rfl, rfl⟩
    · by_cases hb2 : b2.allocate = true
      · simp only [hb2, if_pos, if_true] at hok
        have hrec := ih _ 0 hok (by simp) (by simpa using hb0p)
        simpa using hrec
      · simp only [hb2, Bool.false_eq_true, if_neg, if_false] at hok
        rcases hnf : BlockStore.nextFreeBlock
            { v := s.v, blockSize := s.blockSize, freeHead := s.freeHead,
              freeTail := s.freeTail, total := s.total + 1, prepared := s.prepared,
              disk := writeAt s.disk (s.blockAt b.idx) (pageImage b.ty b.Next b.Data) } fh
            with fh2 | m | m
        rotate_left
        · rw [hnf] at hok
          exact absurd hok (by simp)
        · rw [hnf] at hok
          exact absurd hok (by simp)
        rw [hnf] at hok
        have hfh : fh ≠ 0 := by
          intro hz
          subst hz
          rw [BlockStore.nextFreeBlock] at hnf
          have hz0 : BlockStore.blockAt
              { v := s.v, blockSize := s.blockSize, freeHead := s.freeHead,
                freeTail := s.freeTail, total := s.total + 1, prepared := s.prepared,
                disk := writeAt s.disk (s.blockAt b.idx)
                  (pageImage b.ty b.Next b.Data) } 0 = dataStartAt := by
            simp [BlockStore.blockAt]
          rw [hz0] at hnf
          rw [if_pos (by simpa using hb0p)] at hnf
          exact absurd hnf (by simp)
        have hrec := ih _ fh2 hok (fun _ => by simpa using htail hfh)
          (by simpa using hb0p)
        simpa using hrec
    · injection hok with hok
      injection hok with he1 he2
      subst he2
      rw [← he1]
      exact ⟨fun hz => htail hz, hb0p, rfl, rfl, rfl, rfl⟩
    · by_cases hb2 : b2.allocate = true
      · simp only [hb2, if_pos, if_true] at hok
        have hrec := ih _ 0 hok (by simp) (by simpa using hb0p)
        simpa using hrec
      · simp only [hb2, Bool.false_eq_true, if_neg, if_false] at hok
        rcases hnf : BlockStore.nextFreeBlock
            { v := s.v, blockSize := s.blockSize, freeHead := s.freeHead,
              freeTail := s.freeTail, total := s.total, prepared := s.prepared,
              disk := writeAt s.disk (s.blockAt b.idx) (pageImage b.ty b.Next b.Data) } fh
            with fh2 | m | m
        rotate_left
        · rw [hnf] at hok
          exact absurd hok (by simp)
        · rw [hnf] at hok
          exact absurd hok (by simp)
        rw [hnf] at hok
        have hfh : fh ≠ 0 := by
          intro hz
          subst hz
          rw [BlockStore.nextFreeBlock] at hnf
          have hz0 : BlockStore.blockAt
              { v := s.v, blockSize := s.blockSize, freeHead := s.freeHead,
                freeTail := s.freeTail, total := s.total, prepared := s.prepared,
                disk := writeAt s.disk (s.blockAt b.idx)
                  (pageImage b.ty b.Next b.Data) } 0 = dataStartAt := by
            simp [BlockStore.blockAt]
          rw [hz0] at hnf
          rw [if_pos (by simpa using hb0p)] at hnf
          exact absurd hnf (by simp)
        have hrec := ih _ fh2 hok (fun _ => by simpa using htail hfh)
          (by simpa using hb0p)
        simpa using hrec

theorem putPage_ok_fields (s : BlockStore) (idx t next : Nat) (data : List Nat)
    (s1 : BlockStore) (h : s.putPage idx t next data = .ok s1) :
    s1.v = s.v ∧ s1.blockSize = s.blockSize ∧ s1.freeHead = s.freeHead
      ∧ s1.freeTail = s.freeTail ∧ s1.total = s.total ∧ s1.prepared = s.prepared
      ∧ s1.disk = writeAt s.disk (s.blockAt idx) (pageImage t next data) := by
  obtain ⟨h1, -⟩ := putPage_ok s idx t next data s1 h
  subst h1
  exact ⟨rfl, rfl, rfl, rfl, rfl, rfl, rfl⟩

theorem metaInv_syncMetaData (s : BlockStore) (h1 : s.freeHead = 0 ↔ s.freeTail = 0)
    (h2 : byteAt s.disk dataStartAt ≠ TypeEmpty) (h3 : s.v.length = 6) :
    metaInv s.syncMetaData := by
  refine ⟨h1, ?_, h3⟩
  rw [syncMetaData_byte0 s h3]
  exact h2

theorem erase_metaInv (s : BlockStore) (idx : Nat) (s' : BlockStore)
    (hinv : metaInv s) (h : s.erase idx = .ok s') : metaInv s' := by
  obtain ⟨hiff, hb0, hv6⟩ := hinv
  unfold BlockStore.erase at h
  by_cases hp : s.prepared = false
  · rw [if_pos hp] at h
    exact absurd h (by simp)
  rw [if_neg hp] at h
  by_cases hz : idx = 0
  · rw [if_pos hz] at h
    exact absurd h (by simp)
  rw [if_neg hz] at h
  rcases hpp : s.putPage idx TypeEmpty 0 [] with sp | m | m
  rotate_left
  · rw [hpp] at h
    exact absurd h (by simp)
  · rw [hpp] at h
    exact absurd h (by simp)
  rw [hpp] at h
  simp only at h
  obtain ⟨hf1, hf2, hf3, hf4, hf5, hf6, hf7⟩ := putPage_ok_fields s idx TypeEmpty 0 [] sp hpp
  have hbs3 := putPage_ok_blockSize_ge s idx TypeEmpty 0 [] _ hpp
  have hb1 : byteAt sp.disk dataStartAt ≠ TypeEmpty := by
    rw [hf7, byte0_pageImage_ne s idx TypeEmpty 0 [] hz (by omega)]
    exact hb0
  rw [hf4] at h
  by_cases hft : s.freeTail ≠ 0
  · rw [if_pos hft] at h
    rcases hpp2 : sp.putPage s.freeTail TypeEmpty idx [] with sq | m | m
    rotate_left
    · rw [hpp2] at h
      exact absurd h (by simp)
    · rw [hpp2] at h
      exact absurd h (by simp)
    rw [hpp2] at h
    obtain ⟨hg1, hg2, hg3, hg4, hg5, hg6, hg7⟩ :=
      putPage_ok_fields sp s.freeTail TypeEmpty idx [] sq hpp2
    have hb2 : byteAt sq.disk dataStartAt ≠ TypeEmpty := by
      rw [hg7, byte0_pageImage_ne sp s.freeTail TypeEmpty idx [] hft (by rw [hf2]; omega)]
      exact hb1
    injection h with h
    rw [← h]
    refine metaInv_syncMetaData _ ?_ ?_ ?_
    · show ((if sq.freeHead = 0 then idx else sq.freeHead) = 0 ↔ idx = 0)
      have hne : (if sq.freeHead = 0 then idx else sq.freeHead) ≠ 0 := by
        split
        · exact hz
        · next hne2 => exact hne2
      exact ⟨fun hc => absurd hc hne, fun hc => absurd hc hz⟩
    · show byteAt sq.disk dataStartAt ≠ TypeEmpty
      exact hb2
    · show sq.v.length = 6
      rw [hg1, hf1]
      exact hv6
  · rw [if_neg hft] at h
    injection h with h
    rw [← h]
    refine metaInv_syncMetaData _ ?_ ?_ ?_
    · show ((if sp.freeHead = 0 then idx else sp.freeHead) = 0 ↔ idx = 0)
      have hne : (if sp.freeHead = 0 then idx else sp.freeHead) ≠ 0 := by
        split
        · exact hz
        · next hne2 => exact hne2
      exact ⟨fun hc => absurd hc hne, fun hc => absurd hc hz⟩
    · show byteAt sp.disk dataStartAt ≠ TypeEmpty
      exact hb1
    · show sp.v.length = 6
      rw [hf1]
      exact hv6

theorem putBlocks_metaInv (s : BlockStore) (pages : List Block) (s' : BlockStore)
    (hinv : metaInv s) (h : s.putBlocks pages = .ok s') : metaInv s' := by
  obtain ⟨hiff, hb0, hv6⟩ := hinv
  unfold BlockStore.putBlocks at h
  by_cases hp : s.prepared = false
  · rw [if_pos hp] at h
    exact absurd h (by simp)
  rw [if_neg hp] at h
  rcases hpl : putLoop s s.freeHead pages with ⟨s1, fh⟩ | m | m
  rotate_left
  · rw [hpl] at h
    exact absurd h (by simp)
  · rw [hpl] at h
    exact absurd h (by simp)
  rw [hpl] at h
  simp only at h
  have htail : s.freeHead ≠ 0 → s.freeTail ≠ 0 := fun hz hzz => hz (hiff.mpr hzz)
  obtain ⟨hl1, hl2, hl3, hl4, hl5, hl6⟩ := putLoop_inv pages s s.freeHead s1 fh hpl htail hb0
  by_cases hfh : fh = 0
  · rw [if_pos (by exact hfh)] at h
    injection h with h
    rw [← h]
    refine metaInv_syncMetaData _ ?_ ?_ ?_
    · show (fh = 0 ↔ (0 : Nat) = 0)
      simp [hfh]
    · show byteAt s1.disk dataStartAt ≠ TypeEmpty
      exact hl2
    · show s1.v.length = 6
      rw [hl3]
      exact hv6
  · rw [if_neg (by exact hfh)] at h
    injection h with h
    rw [← h]
    refine metaInv_syncMetaData _ ?_ ?_ ?_
    · show (fh = 0 ↔ s1.freeTail = 0)
      exact ⟨fun hc => absurd hc hfh, fun hc => absurd hc (hl1 hfh)⟩
    · show byteAt s1.disk dataStartAt ≠ TypeEmpty
      exact hl2
    · show s1.v.length = 6
      rw [hl3]
      exact hv6

theorem create_ok_bs (v : List Nat) (bs : Nat) (s' : BlockStore)
    (h : create v bs = .ok s') : 3 ≤ bs := by
  by_contra hlt
  push_neg at hlt
  have hc : ((bs : Int) < 3) := by exact_mod_cast hlt
  simp [create, createOn, BlockStore.putPage, BlockStore.syncMetaData, TypeSuper,
    TypeChained, hc] at h

theorem create_metaInv (v : List Nat) (bs : Nat) (s' : BlockStore) (hv : v.length = 6)
    (h : create v bs = .ok s') : metaInv s' := by
  have hbs := create_ok_bs v bs s' h
  obtain ⟨s2, he, hlen, ht, hfh, hft, hprep, hbsz, hveq, h18, h22, h26, hb⟩ :=
    create_spec v bs hv hbs
  rw [he] at h
  injection h with h
  rw [← h]
  refine ⟨by rw [hfh, hft], ?_, by rw [hveq]; exact hv⟩
  rw [hb]
  simp [TypeSuper, TypeEmpty]

/-- C6: the equivalence `freeHead == 0 ↔ freeTail == 0` holds on the
store's metadata after `Create` and is preserved by every successful
`Erase` and every successful `Put`.  `metaInv` is the equivalence
strengthened with two facts every reachable store satisfies (block 0's
type byte is not Empty, and the version is 6 bytes); the strengthening is
itself established by `Create` and preserved by `Erase` and `Put`. -/
theorem C6_thm :
    (∀ v bs s', v.length = 6 → create v bs = .ok s' →
      (s'.freeHead = 0 ↔ s'.freeTail = 0) ∧ metaInv s') ∧
    (∀ s idx s', metaInv s → s.erase idx = .ok s' →
      (s'.freeHead = 0 ↔ s'.freeTail = 0) ∧ metaInv s') ∧
    (∀ s pages s', metaInv s → s.putBlocks pages = .ok s' →
      (s'.freeHead = 0 ↔ s'.freeTail = 0) ∧ metaInv s') := by
  refine ⟨fun v bs s' hv h => ?_, fun s idx s' hi h => ?_, fun s pages s' hi h => ?_⟩
  · have h2 := create_metaInv v bs s' hv h
    exact ⟨h2.1, h2⟩
  · have h2 := erase_metaInv s idx s' hi h
    exact ⟨h2.1, h2⟩
  · have h2 := putBlocks_metaInv s pages s' hi h
    exact ⟨h2.1, h2⟩

def c6Base : BlockStore := storeOf (create V010000 16)
def c6Erased : BlockStore := storeOf (c6Base.erase 1)
def c6Plan : List Block := blocksOf (c6Base.acquire 5)
def c6Posted : BlockStore := storeOf (c6Base.putBlocks c6Plan)

set_option maxRecDepth 10000 in
/-- C6 (witness): the three parts applied to a concrete store: a fresh
`Create(V010000, 16)` store, an `Erase(1)` on it, and a `Put` of a fresh
one-block plan on it. -/
theorem C6_witness :
    (c6Base.freeHead = 0 ↔ c6Base.freeTail = 0) ∧
    (c6Erased.freeHead = 0 ↔ c6Erased.freeTail = 0) ∧
    (c6Posted.freeHead = 0 ↔ c6Posted.freeTail = 0) :=
  ⟨(C6_thm.1 V010000 16 c6Base (by decide) (by decide)).1,
   (C6_thm.2.1 c6Base 1 c6Erased (by decide) (by decide)).1,
   (C6_thm.2.2 c6Base c6Plan c6Posted (by decide) (by decide)).1⟩

/-! ## Claim C2: the shape of an `Acquire` plan -/

/-- Adjacent wiring of a planned chain: every block's `Next` is the next
block's index and the last block's `Next` is 0. -/
def wiredTo : List Block → Bool
  | [] => true
  | [b] => decide (b.Next = 0)
  | b :: b2 :: rest => (decide (b.Next = b2.idx) && wiredTo (b2 :: rest))

/-- The value of the reuse loop of `Acquire` on a well-formed free chain
`fl`: one block per free index, stopping after `rem` blocks. -/
def reuseSpec (s : BlockStore) (ty : Nat) : Nat → List Nat → List Block
  | 0, _ => []
  | _ + 1, [] => []
  | rem + 1, i :: rest =>
    { ty := ty,
      Next := if rem = 0 then 0 else
        match rest with
        | [] => s.total + 1
        | j :: _ => j,
      Data := [], size := s.DataSize, idx := i, allocate := false }
      :: reuseSpec s ty rem rest

theorem isFreeChain_nil (s : BlockStore) (h : Nat)
    (hc : isFreeChain s h [] = true) : h = 0 := by
  simpa [isFreeChain] using hc

theorem isFreeChain_cons (s : BlockStore) (h i : Nat) (rest : List Nat)
    (hc : isFreeChain s h (i :: rest) = true) :
    h = i ∧ h ≠ 0 ∧ h ≤ s.total ∧ byteAt s.disk (s.blockAt h) = TypeEmpty
      ∧ isFreeChain s (ru32 s.disk (s.blockAt h + 3)) rest = true := by
  simpa [isFreeChain] using hc

theorem reuseLoop_spec (s : BlockStore) (ty : Nat) (fl : List Nat) :
    ∀ (rem h : Nat), isFreeChain s h fl = true →
      reuseLoop s ty rem h = .ok (reuseSpec s ty rem fl) := by
  induction fl with
  | nil =>
    intro rem h hc
    have h0 := isFreeChain_nil s h hc
    subst h0
    cases rem with
    | zero => rfl
    | succ r =>
      rw [reuseLoop, if_pos (Or.inl rfl)]
      rfl
  | cons i rest ih =>
    intro rem h hc
    obtain ⟨heq, hne, hle, hbyte, hrest⟩ := isFreeChain_cons s h i rest hc
    subst heq
    cases rem with
    | zero => rfl
    | succ r =>
      rw [reuseLoop, if_neg (by omega)]
      rw [show s.nextFreeBlock h = .ok (ru32 s.disk (s.blockAt h + 3)) from by
        rw [BlockStore.nextFreeBlock, if_neg (by simpa using hbyte)]]
      cases hr : r with
      | zero => rfl
      | succ r2 =>
        cases rest with
        | nil =>
          have h0 : ru32 s.disk (s.blockAt h + 3) = 0 := isFreeChain_nil s _ hrest
          simp [h0, reuseSpec, reuseLoop]
        | cons j rest2 =>
          have hj := (isFreeChain_cons s _ j rest2 hrest).1
          have hjne := (isFreeChain_cons s _ j rest2 hrest).2.1
          rw [hj] at hrest hjne
          simp [hj, hjne, reuseSpec, ih (r2 + 1) j hrest]

theorem reuseSpec_length (s : BlockStore) (ty : Nat) :
    ∀ (rem : Nat) (fl : List Nat), (reuseSpec s ty rem fl).length = min rem fl.length := by
  intro rem
  induction rem with
  | zero => intro fl; simp [reuseSpec]
  | succ r ih =>
    intro fl
    cases fl with
    | nil => simp [reuseSpec]
    | cons i rest => simp [reuseSpec, ih rest]; omega

theorem reuseSpec_map_idx (s : BlockStore) (ty : Nat) :
    ∀ (rem : Nat) (fl : List Nat),
      (reuseSpec s ty rem fl).map Block.idx = fl.take rem := by
  intro rem
  induction rem with
  | zero => intro fl; simp [reuseSpec]
  | succ r ih =>
    intro fl
    cases fl with
    | nil => simp [reuseSpec]
    | cons i rest => simp [reuseSpec, ih rest]

theorem reuseSpec_allocate (s : BlockStore) (ty : Nat) :
    ∀ (rem : Nat) (fl : List Nat) (b : Block), b ∈ reuseSpec s ty rem fl →
      b.allocate = false := by
  intro rem
  induction rem with
  | zero => intro fl b hb; simp [reuseSpec] at hb
  | succ r ih =>
    intro fl b hb
    cases fl with
    | nil => simp [reuseSpec] at hb
    | cons i rest =>
      rcases List.mem_cons.mp hb with rfl | hb
      · rfl
      · exact ih rest b hb

theorem allocLoop_map_idx (s : BlockStore) (ty : Nat) :
    ∀ (k start : Nat), (allocLoop s ty k start).map Block.idx = List.range' start k := by
  intro k
  induction k with
  | zero => intro start; simp [allocLoop]
  | succ k2 ih =>
    intro start
    simp [allocLoop, ih (start + 1), List.range'_succ]

theorem allocLoop_allocate (s : BlockStore) (ty : Nat) :
    ∀ (k start : Nat) (b : Block), b ∈ allocLoop s ty k start → b.allocate = true := by
  intro k
  induction k with
  | zero => intro start b hb; simp [allocLoop] at hb
  | succ k2 ih =>
    intro start b hb
    rcases List.mem_cons.mp hb with rfl | hb
    · rfl
    · exact ih (start + 1) b hb

theorem wiredTo_allocLoop (s : BlockStore) (ty : Nat) :
    ∀ (k start : Nat), wiredTo (allocLoop s ty k start) = true := by
  intro k
  induction k with
  | zero => intro start; rfl
  | succ k2 ih =>
    intro start
    cases k2 with
    | zero => simp [allocLoop, wiredTo]
    | succ k3 =>
      simp only [allocLoop, wiredTo, Bool.and_eq_true, decide_eq_true_eq]
      refine ⟨by simp, ?_⟩
      have hrec := ih (start + 1)
      simpa [allocLoop, wiredTo] using hrec

/-- The full `Acquire` plan on a well-formed free chain: reused blocks
followed by fresh blocks. -/
def planSpec (s : BlockStore) (ty : Nat) (rem : Nat) (fl : List Nat) : List Block :=
  reuseSpec s ty rem fl ++ allocLoop s ty (rem - min rem fl.length) (s.total + 1)

theorem wiredTo_cons (b : Block) (l : List Block)
    (h1 : match l with | [] => b.Next = 0 | b2 :: _ => b.Next = b2.idx)
    (h2 : wiredTo l = true) : wiredTo (b :: l) = true := by
  cases l with
  | nil => simpa [wiredTo] using h1
  | cons b2 rest =>
    rw [wiredTo]
    simp only [Bool.and_eq_true, decide_eq_true_eq]
    exact ⟨h1, h2⟩

theorem planSpec_cons (s : BlockStore) (ty : Nat) (r : Nat) (i : Nat) (rest : List Nat) :
    planSpec s ty (r + 1) (i :: rest)
      = ({ ty := ty,
           Next := if r = 0 then 0 else
             match rest with
             | [] => s.total + 1
             | j :: _ => j,
           Data := [], size := s.DataSize, idx := i, allocate := false } : Block)
          :: planSpec s ty r rest := by
  have harith : (r + 1) - min (r + 1) (i :: rest).length = r - min r rest.length := by
    simp only [List.length_cons]
    omega
  unfold planSpec
  rw [harith]
  simp only [reuseSpec, List.cons_append]

theorem planSpec_head (s : BlockStore) (ty : Nat) (r : Nat) (fl : List Nat) (hr : 0 < r) :
    match planSpec s ty r fl with
    | [] => False
    | b2 :: _ => b2.idx = (match fl with | [] => s.total + 1 | j :: _ => j) := by
  cases fl with
  | nil =>
    unfold planSpec
    rw [show reuseSpec s ty r [] = [] from by cases r <;> rfl, List.nil_append]
    cases r with
    | zero => omega
    | succ r2 =>
      rw [show r2 + 1 - min (r2 + 1) ([] : List Nat).length = r2 + 1 from by simp]
      simp only [allocLoop]
  | cons j rest =>
    cases r with
    | zero => omega
    | succ r2 =>
      rw [planSpec_cons]

theorem wiredTo_planSpec (s : BlockStore) (ty : Nat) :
    ∀ (fl : List Nat) (rem : Nat), wiredTo (planSpec s ty rem fl) = true := by
  intro fl
  induction fl with
  | nil =>
    intro rem
    unfold planSpec
    rw [show reuseSpec s ty rem [] = [] from by cases rem <;> rfl, List.nil_append]
    exact wiredTo_allocLoop s ty _ _
  | cons i rest ih =>
    intro rem
    cases rem with
    | zero => rfl
    | succ r =>
      rw [planSpec_cons]
      refine wiredTo_cons _ _ ?_ (ih r)
      cases hr : r with
      | zero =>
        rw [show planSpec s ty 0 rest = [] from by
          unfold planSpec
          simp [reuseSpec, allocLoop]]
        simp
      | succ r2 =>
        have hh := planSpec_head s ty (r2 + 1) rest (by omega)
        rcases hpl : planSpec s ty (r2 + 1) rest with _ | ⟨b2, t⟩
        · rw [hpl] at hh
          exact hh.elim
        · rw [hpl] at hh
          simp only [if_neg (Nat.succ_ne_zero r2)]
          cases rest with
          | nil => simpa using hh.symm
          | cons j rest2 => simpa using hh.symm

theorem allocLoop_length (s : BlockStore) (ty : Nat) :
    ∀ (k start : Nat), (allocLoop s ty k start).length = k := by
  intro k
  induction k with
  | zero => intro start; rfl
  | succ k2 ih => intro start; simp [allocLoop, ih (start + 1)]

/-- C2: on a prepared store whose on-disk free list is the well-formed
chain `fl`, `Acquire(L)` (for `L > 0`) returns a plan of exactly
`count = ceil(L / DataSize)` blocks whose leading blocks reuse the
free-list indices from the head in list order, whose remaining blocks are
`allocate` blocks with consecutive fresh indices `total+1, total+2, …`,
and whose `Next` fields chain each block to the next with 0 at the end. -/
theorem C2_thm (s : BlockStore) (fl : List Nat) (L : Nat)
    (hp : s.prepared = true) (hbs : 8 ≤ s.blockSize)
    (hchain : isFreeChain s s.freeHead fl = true) (hL : 0 < L) :
    ∃ blocks, s.acquire L = .ok blocks ∧
      blocks.length = acquireCount s L ∧
      (blocks.take (min (acquireCount s L) fl.length)).map Block.idx
          = fl.take (acquireCount s L) ∧
      (∀ b ∈ blocks.take (min (acquireCount s L) fl.length), b.allocate = false) ∧
      (blocks.drop (min (acquireCount s L) fl.length)).map Block.idx
          = List.range' (s.total + 1) (acquireCount s L - min (acquireCount s L) fl.length) ∧
      (∀ b ∈ blocks.drop (min (acquireCount s L) fl.length), b.allocate = true) ∧
      wiredTo blocks = true := by
  have hds : 0 < s.DataSize := by
    unfold BlockStore.DataSize
    omega
  have hcount : 0 < acquireCount s L := by
    unfold acquireCount
    exact Nat.div_pos (by omega) hds
  have hlen : (reuseSpec s TypeChained (acquireCount s L) fl).length
      = min (acquireCount s L) fl.length := reuseSpec_length s TypeChained _ fl
  have hacq : s.acquire L = .ok (planSpec s TypeChained (acquireCount s L) fl) := by
    unfold BlockStore.acquire
    rw [if_neg (by rw [hp]; simp)]
    simp only []
    rw [if_pos hcount]
    rw [reuseLoop_spec s TypeChained fl (acquireCount s L) s.freeHead hchain]
    simp only [planSpec, hlen]
  refine ⟨_, hacq, ?_, ?_, ?_, ?_, ?_, wiredTo_planSpec s TypeChained fl _⟩
  · simp only [planSpec, List.length_append, hlen, allocLoop_length]
    omega
  · rw [planSpec, ← hlen, List.take_left]
    exact reuseSpec_map_idx s TypeChained _ fl
  · rw [planSpec, ← hlen, List.take_left]
    exact fun b hb => reuseSpec_allocate s TypeChained _ fl b hb
  · rw [planSpec, ← hlen, List.drop_left]
    exact allocLoop_map_idx s TypeChained _ _
  · rw [planSpec, ← hlen, List.drop_left]
    exact fun b hb => allocLoop_allocate s TypeChained _ _ b hb

/-- The file of `c2Store`: a fresh `Create(V010000, 16)` file with blocks
1 (at offset 144) and 2 (at offset 160) Empty, their next fields holding
2 and 0. -/
def c2Disk : List Nat :=
  writeAt (writeAt (storeOf (create V010000 16)).disk 144 ([0, 0, 0] ++ pu32 2)) 160
    ([0, 0, 0] ++ pu32 0)

/-- A concrete store with the well-formed free chain `[1, 2]`. -/
def c2Store : BlockStore :=
  { v := V010000, blockSize := 16, freeHead := 1, freeTail := 2, total := 2,
    prepared := true, disk := c2Disk }

set_option maxRecDepth 10000 in
/-- C2 (witness): the theorem instantiated at `c2Store` and `L = 20`
(block size 16, so `count = 3`: two reused blocks and one fresh). -/
theorem C2_witness :
    c2Store.prepared = true ∧ 8 ≤ c2Store.blockSize ∧
    isFreeChain c2Store c2Store.freeHead [1, 2] = true ∧ (0 : Nat) < 20 ∧
    (∃ blocks, c2Store.acquire 20 = .ok blocks ∧
      blocks.length = acquireCount c2Store 20 ∧
      (blocks.take (min (acquireCount c2Store 20) ([1, 2] : List Nat).length)).map Block.idx
          = ([1, 2] : List Nat).take (acquireCount c2Store 20) ∧
      (∀ b ∈ blocks.take (min (acquireCount c2Store 20) ([1, 2] : List Nat).length),
        b.allocate = false) ∧
      (blocks.drop (min (acquireCount c2Store 20) ([1, 2] : List Nat).length)).map Block.idx
          = List.range' (c2Store.total + 1)
              (acquireCount c2Store 20 - min (acquireCount c2Store 20) ([1, 2] : List Nat).length) ∧
      (∀ b ∈ blocks.drop (min (acquireCount c2Store 20) ([1, 2] : List Nat).length),
        b.allocate = true) ∧
      wiredTo blocks = true) :=
  ⟨by decide, by decide, by decide, by decide,
   C2_thm c2Store [1, 2] 20 (by decide) (by decide) (by decide) (by decide)⟩

/-! ## Claim C3: `Acquire` / `Put` / `WriteTo` round trip -/

instance : Inhabited Block := ⟨⟨0, 0, [], 0, 0, false⟩⟩

theorem blockAt_congr (s s2 : BlockStore) (h : s2.blockSize = s.blockSize) (i : Nat) :
    s2.blockAt i = s.blockAt i := by
  simp [BlockStore.blockAt, h]

/-- One successful step of the `Put` loop: the head block was written by
`putPage`, and the loop continued on some store with the same file, block
size, version and preparedness, and with `total` bumped for an allocate
block. -/
theorem putLoop_cons_ok (b : Block) (rest : List Block) (s : BlockStore) (fh : Nat)
    (s1 : BlockStore) (fh1 : Nat)
    (hok : putLoop s fh (b :: rest) = .ok (s1, fh1)) :
    ∃ sp s2 fh2, s.putPage b.idx b.ty b.Next b.Data = .ok sp ∧
      s2.disk = sp.disk ∧ s2.blockSize = s.blockSize ∧ s2.v = s.v ∧
      s2.prepared = s.prepared ∧
      s2.total = s.total + (if b.allocate = true then 1 else 0) ∧
      putLoop s2 fh2 rest = .ok (s1, fh1) := by
  rw [putLoop] at hok
  by_cases h1 : b.ty = TypeEmpty
  · rw [if_pos h1] at hok
    exact absurd hok (by simp)
  rw [if_neg h1] at hok
  by_cases h2 : b.ty = TypeSuper ∧ b.idx ≠ 0
  · rw [if_pos h2] at hok
    exact absurd hok (by simp)
  rw [if_neg h2] at hok
  by_cases h3 : b.allocate = false ∧ b.idx ≠ fh
  · rw [if_pos h3] at hok
    exact absurd hok (by simp)
  rw [if_neg h3] at hok
  rcases hpp : s.putPage b.idx b.ty b.Next b.Data with sp | m | m
  rotate_left
  · rw [hpp] at hok
    exact absurd hok (by simp)
  · rw [hpp] at hok
    exact absurd hok (by simp)
  rw [hpp] at hok
  obtain ⟨hq1, hq2, hq3, hq4, hq5, hq6, hq7⟩ :=
    putPage_ok_fields s b.idx b.ty b.Next b.Data sp hpp
  by_cases hal : b.allocate = true
  all_goals simp only [hal, if_pos, if_neg, if_true, if_false, Bool.false_eq_true,
    ite_true, ite_false] at hok
  all_goals rcases rest with _ | ⟨b2, rest2⟩
  · injection hok with hok
    injection hok with he1 he2
    refine ⟨sp, { sp with total := sp.total + 1 }, fh, rfl, rfl, hq2, hq1, hq6, ?_, ?_⟩
    · show sp.total + 1 = s.total + (if b.allocate = true then 1 else 0)
      rw [hq5, hal]
      rfl
    · rw [putLoop, he1, he2]
  · by_cases hb2 : b2.allocate = true
    · simp only [hb2, if_pos, if_true] at hok
      refine ⟨sp, { sp with total := sp.total + 1, freeTail := 0 }, 0, rfl, rfl, hq2, hq1,
        hq6, ?_, hok⟩
      show sp.total + 1 = s.total + (if b.allocate = true then 1 else 0)
      rw [hq5, hal]
      rfl
    · simp only [hb2, Bool.false_eq_true, if_neg, if_false] at hok
      rcases hnf : BlockStore.nextFreeBlock
          { v := sp.v, blockSize := sp.blockSize, freeHead := sp.freeHead,
            freeTail := sp.freeTail, total := sp.total + 1, prepared := sp.prepared,
            disk := sp.disk } fh with fh2 | m | m
      rotate_left
      · rw [hnf] at hok
        exact absurd hok (by simp)
      · rw [hnf] at hok
        exact absurd hok (by simp)
      rw [hnf] at hok
      refine ⟨sp, { sp with total := sp.total + 1 }, fh2, rfl, rfl, hq2, hq1, hq6, ?_, hok⟩
      show sp.total + 1 = s.total + (if b.allocate = true then 1 else 0)
      rw [hq5, hal]
      rfl
  · injection hok with hok
    injection hok with he1 he2
    refine ⟨sp, sp, fh, rfl, rfl, hq2, hq1, hq6, ?_, ?_⟩
    · show sp.total = s.total + (if b.allocate = true then 1 else 0)
      rw [hq5, show b.allocate = false from by revert hal; cases b.allocate <;> simp]
      rfl
    · rw [putLoop, he1, he2]
  · by_cases hb2 : b2.allocate = true
    · simp only [hb2, if_pos, if_true] at hok
      refine ⟨sp, { sp with freeTail := 0 }, 0, rfl, rfl, hq2, hq1, hq6, ?_, hok⟩
      show sp.total = s.total + (if b.allocate = true then 1 else 0)
      rw [hq5, show b.allocate = false from by revert hal; cases b.allocate <;> simp]
      rfl
    · simp only [hb2, Bool.false_eq_true, if_neg, if_false] at hok
      rcases hnf : BlockStore.nextFreeBlock sp fh with fh2 | m | m
      rotate_left
      · rw [hnf] at hok
        exact absurd hok (by simp)
      · rw [hnf] at hok
        exact absurd hok (by simp)
      rw [hnf] at hok
      refine ⟨sp, sp, fh2, rfl, rfl, hq2, hq1, hq6, ?_, hok⟩
      show sp.total = s.total + (if b.allocate = true then 1 else 0)
      rw [hq5, show b.allocate = false from by revert hal; cases b.allocate <;> simp]
      rfl

theorem pageImage_length (t next : Nat) (data : List Nat) :
    (pageImage t next data).length = (if t = TypeChained then 7 else 3) + data.length := by
  by_cases ht : t = TypeChained <;> simp [pageImage, pu16, pu32, ht] <;> omega

theorem pageImage_le_blockSize (s : BlockStore) (idx t next : Nat) (data : List Nat)
    (sp : BlockStore) (hpp : s.putPage idx t next data = .ok sp) :
    (pageImage t next data).length ≤ s.blockSize := by
  have h2 := (putPage_ok s idx t next data sp hpp).2
  rw [pageImage_length]
  by_cases ht : t = TypeChained <;> simp [ht] at h2 ⊢ <;> omega

theorem blockAt_cell_disjoint (s : BlockStore) (i j pos : Nat) (hne : i ≠ j)
    (h1 : s.blockAt i ≤ pos) (h2 : pos < s.blockAt i + s.blockSize) :
    pos < s.blockAt j ∨ s.blockAt j + s.blockSize ≤ pos := by
  rcases Nat.lt_or_ge i j with h | h
  · left
    have hm : s.blockSize * (i + 1) ≤ s.blockSize * j := Nat.mul_le_mul_left _ h
    rw [Nat.mul_add, Nat.mul_one] at hm
    unfold BlockStore.blockAt at h1 h2 ⊢
    omega
  · right
    have hj : j < i := by omega
    have hm : s.blockSize * (j + 1) ≤ s.blockSize * i := Nat.mul_le_mul_left _ hj
    rw [Nat.mul_add, Nat.mul_one] at hm
    unfold BlockStore.blockAt at h1 h2 ⊢
    omega

theorem putLoop_ok_struct (pages : List Block) :
    ∀ (s : BlockStore) (fh : Nat) (s1 : BlockStore) (fh1 : Nat),
      putLoop s fh pages = .ok (s1, fh1) →
      s1.blockSize = s.blockSize ∧ s1.v = s.v ∧ s1.prepared = s.prepared ∧
      s1.total = s.total + pages.countP (fun b => b.allocate) ∧
      (∀ b ∈ pages, (b.Data.length : Int)
          ≤ (s.blockSize : Int) - (if b.ty = TypeChained then (7 : Nat) else 3)) := by
  induction pages with
  | nil =>
    intro s fh s1 fh1 hok
    rw [putLoop] at hok
    injection hok with hok
    injection hok with he1 he2
    subst he1
    simp
  | cons b rest ih =>
    intro s fh s1 fh1 hok
    obtain ⟨sp, s2, fh2, hpp, hd, hbs, hv, hprep, htot, hrec⟩ :=
      putLoop_cons_ok b rest s fh s1 fh1 hok
    obtain ⟨i1, i2, i3, i4, i5⟩ := ih s2 fh2 s1 fh1 hrec
    refine ⟨by rw [i1, hbs], by rw [i2, hv], by rw [i3, hprep], ?_, ?_⟩
    · rw [i4, htot, List.countP_cons]
      omega
    · intro c hc
      rcases List.mem_cons.mp hc with rfl | hc
      · exact (putPage_ok s c.idx c.ty c.Next c.Data sp hpp).2
      · have h5 := i5 c hc
        rw [hbs] at h5
        exact h5

theorem putLoop_frame (pages : List Block) :
    ∀ (s : BlockStore) (fh : Nat) (s1 : BlockStore) (fh1 : Nat),
      putLoop s fh pages = .ok (s1, fh1) →
      ∀ pos : Nat,
        (∀ b ∈ pages, pos < s.blockAt b.idx ∨ s.blockAt b.idx + s.blockSize ≤ pos) →
        byteAt s1.disk pos = byteAt s.disk pos := by
  induction pages with
  | nil =>
    intro s fh s1 fh1 hok pos hout
    rw [putLoop] at hok
    injection hok with hok
    injection hok with he1 he2
    subst he1
    rfl
  | cons b rest ih =>
    intro s fh s1 fh1 hok pos hout
    obtain ⟨sp, s2, fh2, hpp, hd, hbs, hv, hprep, htot, hrec⟩ :=
      putLoop_cons_ok b rest s fh s1 fh1 hok
    have hstep : byteAt sp.disk pos = byteAt s.disk pos := by
      rw [(putPage_ok_fields s b.idx b.ty b.Next b.Data sp hpp).2.2.2.2.2.2]
      rcases hout b (List.mem_cons_self b rest) with hc | hc
      · exact byteAt_writeAt_lt _ _ _ _ hc
      · refine byteAt_writeAt_ge _ _ _ _ ?_
        have := pageImage_le_blockSize s b.idx b.ty b.Next b.Data sp hpp
        omega
    have hrest : byteAt s1.disk pos = byteAt s2.disk pos := by
      refine ih s2 fh2 s1 fh1 hrec pos ?_
      intro c hc
      rw [blockAt_congr s s2 hbs, hbs]
      exact hout c (List.mem_cons_of_mem b hc)
    rw [hrest, hd, hstep]

theorem putLoop_content (pages : List Block) :
    ∀ (s : BlockStore) (fh : Nat) (s1 : BlockStore) (fh1 : Nat),
      putLoop s fh pages = .ok (s1, fh1) →
      pages.Pairwise (fun a c => a.idx ≠ c.idx) →
      ∀ b ∈ pages, ∀ o, o < (pageImage b.ty b.Next b.Data).length →
        byteAt s1.disk (s.blockAt b.idx + o) = (pageImage b.ty b.Next b.Data).getD o 0 := by
  induction pages with
  | nil =>
    intro s fh s1 fh1 hok hnd b hb
    exact absurd hb (by simp)
  | cons b rest ih =>
    intro s fh s1 fh1 hok hnd c hc o ho
    obtain ⟨sp, s2, fh2, hpp, hd, hbs, hv, hprep, htot, hrec⟩ :=
      putLoop_cons_ok b rest s fh s1 fh1 hok
    rcases List.mem_cons.mp hc with rfl | hc
    · have hlen := pageImage_le_blockSize s c.idx c.ty c.Next c.Data sp hpp
      have h1 : byteAt sp.disk (s.blockAt c.idx + o)
          = (pageImage c.ty c.Next c.Data).getD o 0 := by
        rw [(putPage_ok_fields s c.idx c.ty c.Next c.Data sp hpp).2.2.2.2.2.2]
        rw [byteAt_writeAt_in _ _ _ _ (by omega) (by omega)]
        congr 1
        omega
      have hframe : byteAt s1.disk (s.blockAt c.idx + o)
          = byteAt s2.disk (s.blockAt c.idx + o) := by
        refine putLoop_frame rest s2 fh2 s1 fh1 hrec _ ?_
        intro b2 hb2
        rw [blockAt_congr s s2 hbs, hbs]
        refine blockAt_cell_disjoint s c.idx b2.idx _ ?_ (by omega) (by omega)
        exact (List.pairwise_cons.mp hnd).1 b2 hb2
      rw [hframe, hd, h1]
    · have hres := ih s2 fh2 s1 fh1 hrec (List.pairwise_cons.mp hnd).2 c hc o ho
      rw [blockAt_congr s s2 hbs] at hres
      exact hres

/-- The `Block` that `Get` returns for a chained block persisted with
payload `b.Data` and successor `b.Next`. -/
def decodeOf (b : Block) : Block :=
  { ty := TypeChained, Next := b.Next, Data := b.Data, size := b.Data.length,
    idx := b.idx, allocate := false }

theorem pageImage_getD_data (next : Nat) (data : List Nat) (i : Nat) :
    (pageImage TypeChained next data).getD (7 + i) 0 = data.getD i 0 := by
  unfold pageImage
  rw [List.getD_append_right]
  · rw [show (([TypeChained] ++ pu16 data.length ++
      (if TypeChained = TypeChained then pu32 next else [])).length) = 7 from by
        simp [pu16, pu32]]
    congr 1
    omega
  · simp [pu16, pu32]

theorem getBlock_of_content (s1 : BlockStore) (b : Block)
    (hprep : s1.prepared = true)
    (hdlen : b.Data.length ≤ s1.blockSize - 7)
    (hbs : 8 ≤ s1.blockSize) (hbs2 : s1.blockSize < 65536)
    (hnext : b.Next < 4294967296)
    (hcontent : ∀ o, o < (pageImage TypeChained b.Next b.Data).length →
        byteAt s1.disk (s1.blockAt b.idx + o)
          = (pageImage TypeChained b.Next b.Data).getD o 0) :
    s1.getBlock b.idx = .ok (decodeOf b) := by
  have hplen : (pageImage TypeChained b.Next b.Data).length = 7 + b.Data.length := by
    rw [pageImage_length]
    simp
  have him : ∀ o, o < 7 →
      (pageImage TypeChained b.Next b.Data).getD o 0
        = ([TypeChained] ++ pu16 b.Data.length ++ pu32 b.Next).getD o 0 := by
    intro o ho
    unfold pageImage
    rw [if_pos rfl, List.getD_append]
    simp only [List.length_append, List.length_cons, List.length_nil]
    simp [pu16, pu32]
    omega
  have hb : ∀ o, o < 7 → byteAt s1.disk (s1.blockAt b.idx + o)
      = ([TypeChained] ++ pu16 b.Data.length ++ pu32 b.Next).getD o 0 := by
    intro o ho
    rw [hcontent o (by omega), him o ho]
  have hb0 : byteAt s1.disk (s1.blockAt b.idx) = TypeChained := by
    have hh := hb 0 (by omega)
    rw [Nat.add_zero] at hh
    rw [hh]
    rfl
  have hsize : ru16 s1.disk (s1.blockAt b.idx + 1) = b.Data.length := by
    have h1 := hb 1 (by omega)
    have h2 := hb 2 (by omega)
    rw [show s1.blockAt b.idx + 1 + 1 = s1.blockAt b.idx + 2 from by omega] at *
    rw [ru16, h1, h2]
    simp only [pu16, pu32]
    show b.Data.length / 256 % 256 * 256 + b.Data.length % 256 = b.Data.length
    omega
  have hnx : ru32 s1.disk (s1.blockAt b.idx + 3) = b.Next := by
    have h3 := hb 3 (by omega)
    have h4 := hb 4 (by omega)
    have h5 := hb 5 (by omega)
    have h6 := hb 6 (by omega)
    rw [show s1.blockAt b.idx + 3 + 1 = s1.blockAt b.idx + 4 from by omega,
      show s1.blockAt b.idx + 3 + 2 = s1.blockAt b.idx + 5 from by omega,
      show s1.blockAt b.idx + 3 + 3 = s1.blockAt b.idx + 6 from by omega] at *
    rw [ru32, h3, h4, h5, h6]
    show ((b.Next / 16777216 % 256 * 256 + b.Next / 65536 % 256) * 256
      + b.Next / 256 % 256) * 256 + b.Next % 256 = b.Next
    omega
  have hdata : readAt s1.disk (s1.blockAt b.idx + 7) b.Data.length = b.Data := by
    refine readAt_eq_of_byteAt _ _ _ ?_
    intro i hi
    rw [show s1.blockAt b.idx + 7 + i = s1.blockAt b.idx + (7 + i) from by omega,
      hcontent (7 + i) (by omega), pageImage_getD_data]
  unfold BlockStore.getBlock
  rw [if_neg (by rw [hprep]; simp)]
  simp only [hb0, hsize, eq_self_iff_true, if_true, ite_true, if_pos rfl]
  rw [if_neg (by omega)]
  simp [decodeOf, hnx, hdata]

/-- Following a persisted wired chain with `From`: every block decodes,
each `Next` is the next block's index, indices are positive, and the fuel
covers the chain length. -/
theorem fromAux_chain (cs : List Block) :
    ∀ (s1 : BlockStore) (fuel : Nat), cs ≠ [] → cs.length < fuel →
      (∀ b ∈ cs, s1.getBlock b.idx = .ok (decodeOf b)) →
      (∀ b ∈ cs, 1 ≤ b.idx) →
      wiredTo cs = true →
      fromAux s1 fuel (cs.headD default).idx = .ok (cs.map decodeOf) := by
  induction cs with
  | nil => intro s1 fuel hne; exact absurd rfl hne
  | cons b rest ih =>
    intro s1 fuel hne hfuel hget hpos hw
    cases fuel with
    | zero => omega
    | succ f =>
      simp only [List.headD_cons]
      rw [fromAux]
      rw [hget b (List.mem_cons_self b rest)]
      cases rest with
      | nil =>
        have hnx : b.Next = 0 := by simpa [wiredTo] using hw
        simp [decodeOf, hnx, TypeChained]
      | cons b2 rest2 =>
        have hw2 : b.Next = b2.idx ∧ wiredTo (b2 :: rest2) = true := by
          rw [wiredTo] at hw
          simpa using hw
        have hnx : b.Next ≠ 0 := by
          have h1 := hpos b2 (by simp)
          rw [hw2.1]
          omega
        have hrec := ih s1 f (by simp) (by
            simp only [List.length_cons] at hfuel ⊢
            omega)
          (fun c hc => hget c (List.mem_cons_of_mem b hc))
          (fun c hc => hpos c (List.mem_cons_of_mem b hc)) hw2.2
        simp only [List.headD_cons] at hrec
        simp only [decodeOf]
        rw [if_neg (by simp [TypeChained])]
        rw [if_pos hnx]
        rw [hw2.1, hrec]
        simp [decodeOf, hw2.1]

theorem isFreeChain_mem_bounds (s : BlockStore) :
    ∀ (l : List Nat) (h : Nat), isFreeChain s h l = true →
      ∀ i ∈ l, 1 ≤ i ∧ i ≤ s.total := by
  intro l
  induction l with
  | nil => intro h _ i hi; simp at hi
  | cons j rest ih =>
    intro h hc i hi
    obtain ⟨heq, hne, hle, _, hrest⟩ := isFreeChain_cons s h j rest hc
    rcases List.mem_cons.mp hi with rfl | hi
    · exact ⟨by omega, by omega⟩
    · exact ih _ hrest i hi

theorem isFreeChain_unique (s : BlockStore) :
    ∀ (l1 l2 : List Nat) (h : Nat), isFreeChain s h l1 = true →
      isFreeChain s h l2 = true → l1 = l2 := by
  intro l1
  induction l1 with
  | nil =>
    intro l2 h h1 h2
    have h0 := isFreeChain_nil s h h1
    cases l2 with
    | nil => rfl
    | cons j rest =>
      obtain ⟨heq, hne, -, -, -⟩ := isFreeChain_cons s h j rest h2
      exact (hne h0).elim
  | cons i rest1 ih =>
    intro l2 h h1 h2
    obtain ⟨heq1, hne1, -, -, hrest1⟩ := isFreeChain_cons s h i rest1 h1
    cases l2 with
    | nil =>
      have h0 := isFreeChain_nil s h h2
      exact (hne1 h0).elim
    | cons j rest2 =>
      obtain ⟨heq2, -, -, -, hrest2⟩ := isFreeChain_cons s h j rest2 h2
      have hij : i = j := by omega
      subst hij
      rw [ih rest2 _ hrest1 hrest2]

theorem isFreeChain_mem_sub (s : BlockStore) :
    ∀ (l : List Nat) (h i : Nat), isFreeChain s h l = true → i ∈ l →
      ∃ v, isFreeChain s i (i :: v) = true ∧ v.length < l.length := by
  intro l
  induction l with
  | nil => intro h i _ hi; simp at hi
  | cons j rest ih =>
    intro h i hc hi
    obtain ⟨heq, hne, hle, hb, hrest⟩ := isFreeChain_cons s h j rest hc
    rcases List.mem_cons.mp hi with rfl | hi
    · subst heq
      exact ⟨rest, hc, by simp⟩
    · obtain ⟨v, hv, hlt⟩ := ih _ i hrest hi
      refine ⟨v, hv, ?_⟩
      simp only [List.length_cons]
      omega

theorem isFreeChain_nodup (s : BlockStore) :
    ∀ (l : List Nat) (h : Nat), isFreeChain s h l = true → l.Nodup := by
  intro l
  induction l with
  | nil => intro h _; exact List.nodup_nil
  | cons i rest ih =>
    intro h hc
    obtain ⟨heq, hne, hle, hb, hrest⟩ := isFreeChain_cons s h i rest hc
    refine List.nodup_cons.mpr ⟨?_, ih _ hrest⟩
    intro hmem
    obtain ⟨v, hv, hlt⟩ := isFreeChain_mem_sub s rest _ i hrest hmem
    rw [heq] at hc
    have heqc := isFreeChain_unique s (i :: rest) (i :: v) i hc hv
    rw [List.cons.injEq] at heqc
    have hlen : rest.length = v.length := by rw [heqc.2]
    omega

theorem isFreeChain_length_le (s : BlockStore) (l : List Nat) (h : Nat)
    (hc : isFreeChain s h l = true) : l.length ≤ s.total := by
  have hnd := isFreeChain_nodup s l h hc
  have hsub : l ⊆ List.range' 1 s.total := by
    intro i hi
    have hb := isFreeChain_mem_bounds s l h hc i hi
    rw [List.mem_range'_1]
    omega
  have hle := (List.subperm_of_subset hnd hsub).length_le
  simpa using hle

theorem reuseSpec_ty (s : BlockStore) (ty : Nat) :
    ∀ (rem : Nat) (fl : List Nat) (b : Block), b ∈ reuseSpec s ty rem fl →
      b.ty = ty := by
  intro rem
  induction rem with
  | zero => intro fl b hb; simp [reuseSpec] at hb
  | succ r ih =>
    intro fl b hb
    cases fl with
    | nil => simp [reuseSpec] at hb
    | cons i rest =>
      rcases List.mem_cons.mp hb with rfl | hb
      · rfl
      · exact ih rest b hb

theorem allocLoop_ty (s : BlockStore) (ty : Nat) :
    ∀ (k start : Nat) (b : Block), b ∈ allocLoop s ty k start → b.ty = ty := by
  intro k
  induction k with
  | zero => intro start b hb; simp [allocLoop] at hb
  | succ k2 ih =>
    intro start b hb
    rcases List.mem_cons.mp hb with rfl | hb
    · rfl
    · exact ih (start + 1) b hb

theorem planSpec_ty (s : BlockStore) (ty rem : Nat) (fl : List Nat) :
    ∀ b ∈ planSpec s ty rem fl, b.ty = ty := by
  intro b hb
  rcases List.mem_append.mp hb with hb | hb
  · exact reuseSpec_ty s ty rem fl b hb
  · exact allocLoop_ty s ty _ _ b hb

theorem planSpec_map_idx (s : BlockStore) (ty rem : Nat) (fl : List Nat) :
    (planSpec s ty rem fl).map Block.idx
      = fl.take rem ++ List.range' (s.total + 1) (rem - min rem fl.length) := by
  unfold planSpec
  rw [List.map_append, reuseSpec_map_idx, allocLoop_map_idx]

theorem planSpec_idx_bounds (s : BlockStore) (ty rem : Nat) (fl : List Nat) (h : Nat)
    (hc : isFreeChain s h fl = true) :
    ∀ b ∈ planSpec s ty rem fl, 1 ≤ b.idx ∧ b.idx ≤ s.total + rem := by
  intro b hb
  have hmem : b.idx ∈ (planSpec s ty rem fl).map Block.idx := List.mem_map_of_mem _ hb
  rw [planSpec_map_idx] at hmem
  rcases List.mem_append.mp hmem with hm | hm
  · have hfl : b.idx ∈ fl := List.mem_of_mem_take hm
    have hbd := isFreeChain_mem_bounds s fl h hc _ hfl
    omega
  · rw [List.mem_range'_1] at hm
    omega

theorem planSpec_idx_nodup (s : BlockStore) (ty rem : Nat) (fl : List Nat) (h : Nat)
    (hc : isFreeChain s h fl = true) :
    ((planSpec s ty rem fl).map Block.idx).Nodup := by
  rw [planSpec_map_idx]
  refine List.Nodup.append ?_ ?_ ?_
  · exact List.Nodup.sublist (List.take_sublist rem fl) (isFreeChain_nodup s fl h hc)
  · exact List.nodup_range' _ _
  · intro a ha hb
    have hfl : a ∈ fl := List.mem_of_mem_take ha
    have hbd := isFreeChain_mem_bounds s fl h hc _ hfl
    rw [List.mem_range'_1] at hb
    omega

theorem planSpec_countP (s : BlockStore) (ty rem : Nat) (fl : List Nat) :
    (planSpec s ty rem fl).countP (fun b => b.allocate)
      = rem - min rem fl.length := by
  unfold planSpec
  rw [List.countP_append]
  have h1 : (reuseSpec s ty rem fl).countP (fun b => b.allocate) = 0 := by
    rw [List.countP_eq_zero]
    intro a ha
    simp [reuseSpec_allocate s ty rem fl a ha]
  have h2 : (allocLoop s ty (rem - min rem fl.length) (s.total + 1)).countP
      (fun b => b.allocate) = rem - min rem fl.length := by
    have he := List.countP_eq_length (p := fun (b : Block) => b.allocate)
      (l := allocLoop s ty (rem - min rem fl.length) (s.total + 1))
    rw [he.mpr (fun a ha => by simp [allocLoop_allocate s ty _ _ a ha]),
      allocLoop_length]
  omega

theorem planSpec_length (s : BlockStore) (ty rem : Nat) (fl : List Nat) :
    (planSpec s ty rem fl).length = rem - min rem fl.length + min rem fl.length := by
  unfold planSpec
  rw [List.length_append, reuseSpec_length, allocLoop_length]
  omega

theorem wiredTo_next_bound :
    ∀ (cs : List Block), wiredTo cs = true →
      ∀ b ∈ cs, b.Next = 0 ∨ b.Next ∈ cs.map Block.idx := by
  intro cs
  induction cs with
  | nil => intro _ b hb; simp at hb
  | cons b1 rest ih =>
    intro hw b hb
    cases rest with
    | nil =>
      rcases List.mem_cons.mp hb with rfl | hb
      · left
        simpa [wiredTo] using hw
      · simp at hb
    | cons b2 rest2 =>
      rw [wiredTo] at hw
      simp only [Bool.and_eq_true, decide_eq_true_eq] at hw
      rcases List.mem_cons.mp hb with rfl | hb
      · right
        rw [hw.1]
        simp
      · rcases ih hw.2 b hb with h0 | hmem
        · left
          exact h0
        · right
          rw [List.map_cons]
          exact List.mem_cons_of_mem _ hmem

/-- Populate an `Acquire` plan with caller payloads: each planned block
gets the corresponding payload as its `Data` (the test code does exactly
this before calling `Put`). -/
def fillPlan (plan : List Block) (ps : List (List Nat)) : List Block :=
  List.zipWith (fun b d => { b with Data := d }) plan ps

theorem fillPlan_length (plan : List Block) (ps : List (List Nat))
    (hl : ps.length = plan.length) : (fillPlan plan ps).length = plan.length := by
  simp [fillPlan, hl]

theorem fillPlan_map_idx :
    ∀ (plan : List Block) (ps : List (List Nat)), ps.length = plan.length →
      (fillPlan plan ps).map Block.idx = plan.map Block.idx := by
  intro plan
  induction plan with
  | nil => intro ps _; simp [fillPlan]
  | cons a rest ih =>
    intro ps hl
    cases ps with
    | nil => simp at hl
    | cons d ds =>
      have h2 : ds.length = rest.length := by simpa using hl
      show ({ a with Data := d } :: fillPlan rest ds).map Block.idx = _
      simp only [List.map_cons]
      rw [ih ds h2]

theorem fillPlan_map_data :
    ∀ (plan : List Block) (ps : List (List Nat)), ps.length = plan.length →
      (fillPlan plan ps).map Block.Data = ps := by
  intro plan
  induction plan with
  | nil =>
    intro ps hl
    have : ps = [] := List.length_eq_zero.mp (by simpa using hl)
    simp [this, fillPlan]
  | cons a rest ih =>
    intro ps hl
    cases ps with
    | nil => simp at hl
    | cons d ds =>
      have h2 : ds.length = rest.length := by simpa using hl
      show ({ a with Data := d } :: fillPlan rest ds).map Block.Data = d :: ds
      simp only [List.map_cons]
      rw [ih ds h2]

theorem fillPlan_mem :
    ∀ (plan : List Block) (ps : List (List Nat)) (b : Block), b ∈ fillPlan plan ps →
      ∃ a ∈ plan, b.ty = a.ty ∧ b.idx = a.idx ∧ b.Next = a.Next
        ∧ b.allocate = a.allocate := by
  intro plan
  induction plan with
  | nil => intro ps b hb; simp [fillPlan] at hb
  | cons a rest ih =>
    intro ps b hb
    cases ps with
    | nil => simp [fillPlan] at hb
    | cons d ds =>
      have hb2 : b ∈ ({ a with Data := d } : Block) :: fillPlan rest ds := hb
      rcases List.mem_cons.mp hb2 with rfl | hb3
      · exact ⟨a, List.mem_cons_self a rest, rfl, rfl, rfl, rfl⟩
      · obtain ⟨a2, ha2, hfacts⟩ := ih ds b hb3
        exact ⟨a2, List.mem_cons_of_mem a ha2, hfacts⟩

theorem wiredTo_fillPlan :
    ∀ (plan : List Block) (ps : List (List Nat)), ps.length = plan.length →
      wiredTo plan = true → wiredTo (fillPlan plan ps) = true := by
  intro plan
  induction plan with
  | nil =>
    intro ps _ _
    have : fillPlan [] ps = [] := by simp [fillPlan]
    rw [this]
    rfl
  | cons a rest ih =>
    intro ps hl hw
    cases ps with
    | nil => simp at hl
    | cons d ds =>
      have h2 : ds.length = rest.length := by simpa using hl
      cases rest with
      | nil =>
        cases ds with
        | nil =>
          show wiredTo [{ a with Data := d }] = true
          simpa [wiredTo] using hw
        | cons _ _ => simp at h2
      | cons a2 rest2 =>
        cases ds with
        | nil => simp at h2
        | cons d2 ds2 =>
          rw [wiredTo] at hw
          simp only [Bool.and_eq_true, decide_eq_true_eq] at hw
          show wiredTo ({ a with Data := d }
            :: ({ a2 with Data := d2 } :: fillPlan rest2 ds2)) = true
          rw [wiredTo]
          simp only [Bool.and_eq_true, decide_eq_true_eq]
          refine ⟨hw.1, ?_⟩
          have hrec := ih (d2 :: ds2) (by simpa using h2) hw.2
          exact hrec

theorem fillPlan_countP :
    ∀ (plan : List Block) (ps : List (List Nat)), ps.length = plan.length →
      (fillPlan plan ps).countP (fun b => b.allocate)
        = plan.countP (fun b => b.allocate) := by
  intro plan
  induction plan with
  | nil => intro ps _; simp [fillPlan]
  | cons a rest ih =>
    intro ps hl
    cases ps with
    | nil => simp at hl
    | cons d ds =>
      have h2 : ds.length = rest.length := by simpa using hl
      show (({ a with Data := d } : Block) :: fillPlan rest ds).countP
        (fun b => b.allocate) = _
      rw [List.countP_cons, List.countP_cons, ih ds h2]

/-- Destructuring a successful `Put`: the loop succeeded, and the final
store is the loop's store with adjusted free pointers and flushed
metadata — in particular the data region (bytes 120 and beyond) is
exactly the loop's. -/
theorem putBlocks_ok_elim (s : BlockStore) (pages : List Block) (s1 : BlockStore)
    (hv : s.v.length = 6)
    (h : s.putBlocks pages = .ok s1) :
    ∃ sp fh, putLoop s s.freeHead pages = .ok (sp, fh) ∧
      s1.blockSize = sp.blockSize ∧ s1.prepared = sp.prepared ∧ s1.total = sp.total ∧
      (∀ pos, 120 ≤ pos → byteAt s1.disk pos = byteAt sp.disk pos) := by
  unfold BlockStore.putBlocks at h
  by_cases hp : s.prepared = false
  · rw [if_pos hp] at h
    exact absurd h (by simp)
  rw [if_neg hp] at h
  rcases hpl : putLoop s s.freeHead pages with ⟨sp, fh⟩ | m | m
  rotate_left
  · rw [hpl] at h
    exact absurd h (by simp)
  · rw [hpl] at h
    exact absurd h (by simp)
  rw [hpl] at h
  simp only at h
  have hvv : sp.v = s.v := (putLoop_ok_struct pages s s.freeHead sp fh hpl).2.1
  refine ⟨sp, fh, rfl, ?_⟩
  by_cases hfh : fh = 0
  · rw [if_pos (by exact hfh)] at h
    injection h with h
    rw [← h]
    refine ⟨rfl, rfl, rfl, ?_⟩
    intro pos hpos
    show byteAt (writeAt sp.disk magicSize
      (metaBytes { sp with freeHead := fh, freeTail := 0 })) pos = byteAt sp.disk pos
    refine byteAt_writeAt_ge _ _ _ _ ?_
    have hm : (metaBytes { sp with freeHead := fh, freeTail := 0 }).length = 104 := by
      simp [metaBytes, pu16, pu32, hvv, hv]
    rw [hm]
    unfold magicSize
    omega
  · rw [if_neg (by exact hfh)] at h
    injection h with h
    rw [← h]
    refine ⟨rfl, rfl, rfl, ?_⟩
    intro pos hpos
    show byteAt (writeAt sp.disk magicSize
      (metaBytes { sp with freeHead := fh })) pos = byteAt sp.disk pos
    refine byteAt_writeAt_ge _ _ _ _ ?_
    have hm : (metaBytes { sp with freeHead := fh }).length = 104 := by
      simp [metaBytes, pu16, pu32, hvv, hv]
    rw [hm]
    unfold magicSize
    omega

set_option maxHeartbeats 1000000 in
/-- C3: on a prepared store with a well-formed free list, any chain of
blocks produced by `Acquire(L)` (`L > 0`), populated with caller payloads
totalling `L` bytes, and persisted by a successful `Put`, is read back by
`WriteTo` of the first block's index as exactly the concatenation of
those payloads, whose total length equals `L`. -/
theorem C3_thm (s : BlockStore) (fl : List Nat) (L : Nat) (plan : List Block)
    (ps : List (List Nat)) (s1 : BlockStore)
    (hp : s.prepared = true) (hv : s.v.length = 6)
    (hbs : 8 ≤ s.blockSize) (hbs2 : s.blockSize < 65536)
    (hchain : isFreeChain s s.freeHead fl = true)
    (htot : s.total + acquireCount s L < 4294967296)
    (hL : 0 < L)
    (hacq : s.acquire L = .ok plan)
    (hlen : ps.length = plan.length)
    (hsum : (ps.map List.length).sum = L)
    (hput : s.putBlocks (fillPlan plan ps) = .ok s1) :
    ∃ out, s1.writeTo ((fillPlan plan ps).headD default).idx = .ok out ∧
      out.2 = ps.flatten ∧ out.2.length = L := by
  have hds : 0 < s.DataSize := by
    unfold BlockStore.DataSize
    omega
  have hcount : 0 < acquireCount s L := by
    unfold acquireCount
    exact Nat.div_pos (by omega) hds
  have hrlen : (reuseSpec s TypeChained (acquireCount s L) fl).length
      = min (acquireCount s L) fl.length := reuseSpec_length s TypeChained _ fl
  have hacq2 : s.acquire L = .ok (planSpec s TypeChained (acquireCount s L) fl) := by
    unfold BlockStore.acquire
    rw [if_neg (by rw [hp]; simp)]
    simp only []
    rw [if_pos hcount]
    rw [reuseLoop_spec s TypeChained fl (acquireCount s L) s.freeHead hchain]
    simp only [planSpec, hrlen]
  have hplan : plan = planSpec s TypeChained (acquireCount s L) fl := by
    rw [hacq2] at hacq
    injection hacq with hacq
    exact hacq.symm
  subst hplan
  have hfl_le : fl.length ≤ s.total := isFreeChain_length_le s fl s.freeHead hchain
  have hplen : (planSpec s TypeChained (acquireCount s L) fl).length
      = acquireCount s L := by
    rw [planSpec_length]
    omega
  have hflen : (fillPlan (planSpec s TypeChained (acquireCount s L) fl) ps).length
      = acquireCount s L := by
    rw [fillPlan_length _ _ hlen, hplen]
  have hfne : fillPlan (planSpec s TypeChained (acquireCount s L) fl) ps ≠ [] := by
    intro hc
    rw [hc] at hflen
    simp at hflen
    omega
  have hmemF : ∀ b ∈ fillPlan (planSpec s TypeChained (acquireCount s L) fl) ps,
      b.ty = TypeChained ∧ 1 ≤ b.idx ∧ b.idx ≤ s.total + acquireCount s L := by
    intro b hb
    obtain ⟨a, ha, hty, hidx, hnx, halloc⟩ := fillPlan_mem _ _ b hb
    have hbd := planSpec_idx_bounds s TypeChained (acquireCount s L) fl
      s.freeHead hchain a ha
    refine ⟨?_, ?_, ?_⟩
    · rw [hty]
      exact planSpec_ty s TypeChained (acquireCount s L) fl a ha
    · omega
    · omega
  have hwiredF : wiredTo (fillPlan (planSpec s TypeChained (acquireCount s L) fl) ps)
      = true :=
    wiredTo_fillPlan _ _ hlen (wiredTo_planSpec s TypeChained fl _)
  have hnextF : ∀ b ∈ fillPlan (planSpec s TypeChained (acquireCount s L) fl) ps,
      b.Next < 4294967296 := by
    intro b hb
    rcases wiredTo_next_bound _ hwiredF b hb with h0 | hmem
    · omega
    · obtain ⟨c, hc, hce⟩ := List.mem_map.mp hmem
      have hcb := hmemF c hc
      omega
  have hpw : (fillPlan (planSpec s TypeChained (acquireCount s L) fl) ps).Pairwise
      (fun a c => a.idx ≠ c.idx) := by
    have hnd : ((fillPlan (planSpec s TypeChained (acquireCount s L) fl) ps).map
        Block.idx).Nodup := by
      rw [fillPlan_map_idx _ _ hlen]
      exact planSpec_idx_nodup s TypeChained (acquireCount s L) fl s.freeHead hchain
    exact List.pairwise_map.mp hnd
  obtain ⟨sp, fh, hloop, hbsE, hprepE, htotE, hframe⟩ :=
    putBlocks_ok_elim s _ s1 hv hput
  obtain ⟨i1, i2, i3, i4, i5⟩ := putLoop_ok_struct _ s s.freeHead sp fh hloop
  have hbs1 : s1.blockSize = s.blockSize := by rw [hbsE, i1]
  have hprep1 : s1.prepared = true := by rw [hprepE, i3, hp]
  have hdlen : ∀ b ∈ fillPlan (planSpec s TypeChained (acquireCount s L) fl) ps,
      b.Data.length ≤ s1.blockSize - 7 := by
    intro b hb
    have h5 := i5 b hb
    rw [(hmemF b hb).1, if_pos rfl] at h5
    rw [hbs1]
    omega
  have hcont : ∀ b ∈ fillPlan (planSpec s TypeChained (acquireCount s L) fl) ps,
      ∀ o, o < (pageImage TypeChained b.Next b.Data).length →
      byteAt s1.disk (s1.blockAt b.idx + o)
        = (pageImage TypeChained b.Next b.Data).getD o 0 := by
    intro b hb o ho
    have hty := (hmemF b hb).1
    have hc := putLoop_content _ s s.freeHead sp fh hloop hpw b hb o
      (by rw [hty]; exact ho)
    rw [hty] at hc
    have hfr : byteAt s1.disk (s.blockAt b.idx + o) = byteAt sp.disk (s.blockAt b.idx + o) := by
      refine hframe _ ?_
      have hidx := (hmemF b hb).2.1
      have hmul : s.blockSize * 1 ≤ s.blockSize * b.idx :=
        Nat.mul_le_mul_left _ hidx
      unfold BlockStore.blockAt dataStartAt
      omega
    have hba : s1.blockAt b.idx = s.blockAt b.idx := by
      unfold BlockStore.blockAt
      rw [hbs1]
    rw [hba, hfr, hc]
  have hget : ∀ b ∈ fillPlan (planSpec s TypeChained (acquireCount s L) fl) ps,
      s1.getBlock b.idx = .ok (decodeOf b) := by
    intro b hb
    exact getBlock_of_content s1 b hprep1 (hdlen b hb) (by rw [hbs1]; exact hbs)
      (by rw [hbs1]; exact hbs2) (hnextF b hb) (fun o ho => hcont b hb o ho)
  have hcountP : (fillPlan (planSpec s TypeChained (acquireCount s L) fl) ps).countP
      (fun b => b.allocate)
        = acquireCount s L - min (acquireCount s L) fl.length := by
    rw [fillPlan_countP _ _ hlen, planSpec_countP]
  have htot1 : s1.total
      = s.total + (acquireCount s L - min (acquireCount s L) fl.length) := by
    rw [htotE, i4, hcountP]
  have hfuel : (fillPlan (planSpec s TypeChained (acquireCount s L) fl) ps).length
      < s1.total + 2 := by
    rw [hflen, htot1]
    omega
  have hfrom := fromAux_chain _ s1 (s1.total + 2) hfne hfuel hget
    (fun b hb => (hmemF b hb).2.1) hwiredF
  have hdata : ((fillPlan (planSpec s TypeChained (acquireCount s L) fl) ps).map
      decodeOf).map Block.Data = ps := by
    rw [List.map_map]
    have hcomp : (Block.Data ∘ decodeOf) = Block.Data := by
      funext b
      rfl
    rw [hcomp, fillPlan_map_data _ _ hlen]
  refine ⟨((fillPlan (planSpec s TypeChained (acquireCount s L) fl) ps).map decodeOf,
    (((fillPlan (planSpec s TypeChained (acquireCount s L) fl) ps).map decodeOf).map
      Block.Data).flatten), ?_, ?_, ?_⟩
  · unfold BlockStore.writeTo BlockStore.fromChain
    rw [hfrom]
  · show (((fillPlan (planSpec s TypeChained (acquireCount s L) fl) ps).map
      decodeOf).map Block.Data).flatten = ps.flatten
    rw [hdata]
  · show ((((fillPlan (planSpec s TypeChained (acquireCount s L) fl) ps).map
      decodeOf).map Block.Data).flatten).length = L
    rw [hdata, List.length_flatten, hsum]

def c3Base : BlockStore := storeOf (create V010000 16)

def c3Plan : List Block := blocksOf (c3Base.acquire 11)

def c3Ps : List (List Nat) := [[1, 2, 3, 4, 5, 6, 7, 8, 9], [10, 11]]

def c3S1 : BlockStore := storeOf (c3Base.putBlocks (fillPlan c3Plan c3Ps))

set_option maxRecDepth 100000 in
/-- C3 (witness): the theorem instantiated on a fresh `Create(V010000, 16)`
store with `L = 11` (two chained blocks: a 9-byte and a 2-byte payload). -/
theorem C3_witness :
    c3Base.prepared = true ∧ c3Base.v.length = 6 ∧ 8 ≤ c3Base.blockSize ∧
    c3Base.blockSize < 65536 ∧ isFreeChain c3Base c3Base.freeHead [] = true ∧
    c3Base.total + acquireCount c3Base 11 < 4294967296 ∧ (0 : Nat) < 11 ∧
    c3Base.acquire 11 = .ok c3Plan ∧ c3Ps.length = c3Plan.length ∧
    (c3Ps.map List.length).sum = 11 ∧
    c3Base.putBlocks (fillPlan c3Plan c3Ps) = .ok c3S1 ∧
    (∃ out, c3S1.writeTo ((fillPlan c3Plan c3Ps).headD default).idx = .ok out ∧
      out.2 = c3Ps.flatten ∧ out.2.length = 11) :=
  ⟨by decide, by decide, by decide, by decide, by decide, by decide, by decide,
   by rfl, by decide, by decide, by rfl,
   C3_thm c3Base [] 11 c3Plan c3Ps c3S1 (by decide) (by decide) (by decide)
     (by decide) (by decide) (by decide) (by decide) (by rfl) (by decide)
     (by decide) (by rfl)⟩

/-! ## The B-tree

The in-memory B-tree: `pair` (key/value byte strings, compared by key
with `bytes.Compare`), `node` (a `first` child plus an array of elements,
each an entry with an optional `after` child), `btree` (a root pointer and
the byte budget `total`).  Go pointers become `Option node`; a method call
on a nil pointer crashes at its first field access.  The recursions of
`put`, `get` and the binary-search loop are rendered with an explicit
fuel argument standing for the call depth (entry points pass
`nodeSize root + 1`, which exceeds the tree height, so the fuel branch is
dead on every terminating Go run). -/

structure pair where
  Key : List Nat
  Val : List Nat
deriving DecidableEq

inductive node where
  | mk (first : Option node) (elems : List (pair × Option node))

/- An executable size measure on trees, used as the fuel bound at the
entry points: `nodeSize n` strictly exceeds the size of every descendant,
hence the height. -/
mutual
def nodeSize : node → Nat
  | .mk first elems => 1 + nodeSizeO first + nodeSizeL elems
def nodeSizeO : Option node → Nat
  | none => 0
  | some n => 1 + nodeSize n
def nodeSizeL : List (pair × Option node) → Nat
  | [] => 0
  | e :: rest => 1 + nodeSizeO e.2 + nodeSizeL rest
end

def node.first : node → Option node
  | .mk f _ => f

def node.elems : node → List (pair × Option node)
  | .mk _ es => es

/-- `bytes.Compare`: lexicographic, -1 / 0 / 1, a strict prefix is
smaller. -/
def bytesCompare : List Nat → List Nat → Int
  | [], [] => 0
  | [], _ :: _ => -1
  | _ :: _, [] => 1
  | a :: as, b :: bs =>
    if a < b then -1 else if b < a then 1 else bytesCompare as bs

/-- `mid := left + (right-left)/2`; the operand is non-negative whenever
the loop body runs, so Nat division is the Go `int` division. -/
def sbMid (l r : Int) : Int := l + (((r - l).toNat / 2 : Nat) : Int)

/-- Indexing with a junk default: the loop only ever probes in-bounds
positions (an out-of-bounds Go index would panic, and the brackets keep
`mid` within the array). -/
def elAt (elems : List (pair × Option node)) (i : Nat) : pair × Option node :=
  elems.getD i ⟨⟨[], []⟩, none⟩

/-- The binary-search loop of `array.shouldBe`: `left`/`right` are the Go
`int` brackets; the probed element is compared to `item` by key.  The
fuel branch returns the loop-exit value and is dead for
`fuel > right + 1 - left`. -/
def sbLoop (x : pair) (elems : List (pair × Option node)) :
    Nat → Int → Int → Nat × Bool
  | 0, l, _ => (l.toNat, false)
  | fuel + 1, l, r =>
    if l ≤ r then
      if bytesCompare (elAt elems (sbMid l r).toNat).1.Key x.Key = 0 then
        ((sbMid l r).toNat, true)
      else if bytesCompare (elAt elems (sbMid l r).toNat).1.Key x.Key > 0 then
        sbLoop x elems fuel l (sbMid l r - 1)
      else sbLoop x elems fuel (sbMid l r + 1) r
    else (l.toNat, false)

/-- `array.shouldBe`: position and exact-match flag. -/
def shouldBe (elems : List (pair × Option node)) (x : pair) : Nat × Bool :=
  if elems.length = 0 then (0, false)
  else sbLoop x elems (elems.length + 1) 0 ((elems.length : Int) - 1)

/-- `array.insertAt`. -/
def insertAt (l : List (pair × Option node)) (idx : Nat)
    (a : pair × Option node) : List (pair × Option node) :=
  l.take idx ++ a :: l.drop idx

/-- `node.shouldUse`: 6 header bytes plus `pair.Size` (key length + value
length; the `max` parameter is ignored by `pair.Size`) summed over the
elements. -/
def shouldUse (elems : List (pair × Option node)) : Nat :=
  6 + (elems.map (fun e => e.1.Key.length + e.1.Val.length)).sum

/-- `node.overflow`: `shouldUse() > int(n.tree.total)`. -/
def overflow (total : Nat) (elems : List (pair × Option node)) : Bool :=
  decide (total < shouldUse elems)

/-- The result of `node.put` as seen by the caller: either the subtree
was rebuilt in place, or it split and the separator (whose `after` is the
new right node) must be inserted one level up — in the source this
happens through the parent pointer inside `popup`. -/
inductive PutRes where
  | one (n : node)
  | split (l : node) (sep : pair) (r : node)

/-- One level of `node.popup` / `node.split`: no overflow returns the
node; otherwise split at `len/2` — `p := elems[pos]` (an out-of-range
index would panic), left keeps `first` and `elems[:pos]`, and when
`r := len-pos-1 ≤ 0` `split` returns `nn = nil`, after which `popup`
writes `nn.p` and panics; otherwise the right node is
`{first: p.after, elems: elems[pos+1:]}` and the separator's `after`
becomes the right node. -/
def popupStep (total : Nat) (first : Option node)
    (elems : List (pair × Option node)) : Res PutRes :=
  if overflow total elems = false then .ok (.one (.mk first elems))
  else
    let pos := elems.length / 2
    match elems.get? pos with
    | none => .crash "index out of range"
    | some e =>
      if elems.length ≤ pos + 1 then
        .crash "invalid memory address or nil pointer dereference"
      else
        .ok (.split (.mk first (elems.take pos)) e.1
          (.mk e.2 (elems.drop (pos + 1))))

/-- `node.put`: binary search; an exact hit replaces the element in place
(keeping its `after`) and returns without an overflow check; otherwise
descend into `first` (position 0) or `elems[pos-1].after` when that child
exists, else insert at `pos` and run `popup`.  A child split surfaces
here (in the source via the parent pointer): the child slot keeps the
left half, the separator is inserted at its searched position, and
`popup` continues at this node. -/
def putNode (total : Nat) : Nat → node → pair → Res PutRes
  | 0, _, _ => .crash "recursion depth exceeded"
  | fuel + 1, .mk first elems, x =>
    let sb := shouldBe elems x
    if sb.2 then
      match elems.get? sb.1 with
      | none => .crash "index out of range"
      | some e => .ok (.one (.mk first (elems.set sb.1 (x, e.2))))
    else if sb.1 = 0 then
      match first with
      | some c =>
        match putNode total fuel c x with
        | .err m => .err m
        | .crash m => .crash m
        | .ok (.one c2) => .ok (.one (.mk (some c2) elems))
        | .ok (.split l sep r) =>
          popupStep total (some l)
            (insertAt elems (shouldBe elems sep).1 (sep, some r))
      | none => popupStep total first (insertAt elems sb.1 (x, none))
    else
      match elems.get? (sb.1 - 1) with
      | none => .crash "index out of range"
      | some e =>
        match e.2 with
        | some c =>
          match putNode total fuel c x with
          | .err m => .err m
          | .crash m => .crash m
          | .ok (.one c2) =>
            .ok (.one (.mk first (elems.set (sb.1 - 1) (e.1, some c2))))
          | .ok (.split l sep r) =>
            let elems1 := elems.set (sb.1 - 1) (e.1, some l)
            popupStep total first
              (insertAt elems1 (shouldBe elems1 sep).1 (sep, some r))
        | none => popupStep total first (insertAt elems sb.1 (x, none))

/-- `btree.Put`: a nil root becomes a one-element root; otherwise
`root.put` runs and the (possibly new) root is stored — a root split
builds `{first: n, elems: [p]}` with the separator's `after` the right
half. -/
def treePut (total : Nat) (t : Option node) (x : pair) : Res (Option node) :=
  match t with
  | none => .ok (some (.mk none [(x, none)]))
  | some root =>
    match putNode total (nodeSize root + 1) root x with
    | .err m => .err m
    | .crash m => .crash m
    | .ok (.one n) => .ok (some n)
    | .ok (.split l sep r) => .ok (some (.mk (some l) [(sep, some r)]))

/-- `node.get`: binary search; exact hit returns the element; else
descend into `first` / `elems[pos-1].after`, or fail with "not found"
when the child is nil. -/
def nodeGet : Nat → node → List Nat → Res pair
  | 0, _, _ => .crash "recursion depth exceeded"
  | fuel + 1, .mk first elems, key =>
    let sb := shouldBe elems ⟨key, []⟩
    if sb.2 then
      match elems.get? sb.1 with
      | none => .crash "index out of range"
      | some e => .ok e.1
    else if sb.1 = 0 then
      match first with
      | some c => nodeGet fuel c key
      | none => .err "not found"
    else
      match elems.get? (sb.1 - 1) with
      | none => .crash "index out of range"
      | some e =>
        match e.2 with
        | some c => nodeGet fuel c key
        | none => .err "not found"

/-- `btree` with its byte budget. -/
structure BTree where
  total : Nat
  root : Option node

/-- `NewTree(total)`: nil root. -/
def NewTree (total : Nat) : BTree := ⟨total, none⟩

def BTree.Put (t : BTree) (x : pair) : Res BTree :=
  match treePut t.total t.root x with
  | .err m => .err m
  | .crash m => .crash m
  | .ok r => .ok ⟨t.total, r⟩

/-- `btree.Get`: `tree.root.get(data)` with no nil check — a nil root is
dereferenced inside `node.get`'s first action (`n.elems.shouldBe`). -/
def BTree.Get (t : BTree) (key : List Nat) : Res pair :=
  match t.root with
  | none => .crash "invalid memory address or nil pointer dereference"
  | some root => nodeGet (nodeSize root + 1) root key

/-- The entry step of `node.del`: its first statement is
`n.elems.shouldBe(p)`, which reads `n.elems` through the receiver, and
`btree.Del` invokes it as `tree.root.del(data)` with no nil check, so a
nil root faults here before any of `del`'s later logic runs.  This entry
step therefore fully determines `Del`'s behaviour on an empty tree — the
only tree any claim examines `Del` on. -/
def delEntry (t : BTree) (x : pair) : Res (Nat × Bool) :=
  match t.root with
  | none => .crash "invalid memory address or nil pointer dereference"
  | some (.mk _ elems) => .ok (shouldBe elems x)

/-- A sequence of `Put` calls, stopping at the first failure. -/
def putAll (t : BTree) : List pair → Res BTree
  | [] => .ok t
  | x :: rest =>
    match t.Put x with
    | .err m => .err m
    | .crash m => .crash m
    | .ok t2 => putAll t2 rest

/-- The most recently inserted pair with key `k` in the sequence `S`. -/
def lastIns (S : List pair) (k : List Nat) : Option pair :=
  S.reverse.find? (fun p => decide (p.Key = k))

/-! ## Claims C9 and C10 -/

/-- The one-element root produced by the first `Put` on `NewTree(8)`. -/
def c9Root1 : BTree :=
  ⟨8, some (.mk none [(⟨[97, 97], [97, 97]⟩, none)])⟩

/-- C9: inserting "aa"→"aa" and then "bb"→"bb" into `NewTree(8)` makes
the root overflow (`shouldUse = 14 > 8`) while holding 2 < 3 elements.
The claim says this fails with an insufficient-room error, and that
insufficient-room is the only possible mutation failure; instead `split`
returns `nn = nil` (because `r = len-pos-1 ≤ 0`) and `popup` panics
writing `nn.p` — a nil-pointer crash, not an error.  (The older revision
`src/btree.go` still has the `len < 3` insufficient-room guard that this
code dropped.) -/
theorem C9_thm :
    (NewTree 8).Put ⟨[97, 97], [97, 97]⟩ = .ok c9Root1 ∧
    c9Root1.Put ⟨[98, 98], [98, 98]⟩
      = .crash "invalid memory address or nil pointer dereference" :=
  ⟨rfl, rfl⟩

/-- C10: on a freshly created tree (nil root) `Get` does not return a
not-found error and `Del` does not return at all: `btree.Get` runs
`tree.root.get` and `btree.Del` runs `tree.root.del`, both of which
dereference the nil root at their first action (`n.elems.shouldBe`), so a
total embedding reaches the panic branch; any `Get` or `Del` therefore
presupposes a successful prior `Put`. -/
theorem C10_thm (total : Nat) (x : pair) :
    (NewTree total).Get x.Key
        = .crash "invalid memory address or nil pointer dereference" ∧
      delEntry (NewTree total) x
        = .crash "invalid memory address or nil pointer dereference" :=
  ⟨rfl, rfl⟩

/-! ## Order facts about `bytesCompare` -/

theorem bc_refl (a : List Nat) : bytesCompare a a = 0 := by
  induction a with
  | nil => rfl
  | cons x xs ih => simp [bytesCompare, ih]

theorem bc_eq_iff (a : List Nat) : ∀ b, bytesCompare a b = 0 ↔ a = b := by
  induction a with
  | nil =>
    intro b
    cases b with
    | nil => simp [bytesCompare]
    | cons y ys => simp [bytesCompare]
  | cons x xs ih =>
    intro b
    cases b with
    | nil => simp [bytesCompare]
    | cons y ys =>
      by_cases h1 : x < y
      · simp [bytesCompare, h1]
        omega
      · by_cases h2 : y < x
        · simp [bytesCompare, h1, h2]
          omega
        · have hxy : x = y := by omega
          simp [bytesCompare, h1, h2, hxy, ih ys]

theorem bc_swap (a : List Nat) : ∀ b, bytesCompare b a = -bytesCompare a b := by
  induction a with
  | nil =>
    intro b
    cases b with
    | nil => rfl
    | cons y ys => rfl
  | cons x xs ih =>
    intro b
    cases b with
    | nil => rfl
    | cons y ys =>
      by_cases h1 : x < y
      · simp [bytesCompare, h1, Nat.lt_asymm h1]
      · by_cases h2 : y < x
        · simp [bytesCompare, h1, h2]
        · have hxy : x = y := by omega
          simp [bytesCompare, h1, h2, hxy, ih ys]

theorem bc_cases (a b : List Nat) :
    bytesCompare a b = -1 ∨ bytesCompare a b = 0 ∨ bytesCompare a b = 1 := by
  induction a generalizing b with
  | nil => cases b <;> simp [bytesCompare]
  | cons x xs ih =>
    cases b with
    | nil => simp [bytesCompare]
    | cons y ys =>
      by_cases h1 : x < y
      · simp [bytesCompare, h1]
      · by_cases h2 : y < x
        · simp [bytesCompare, h1, h2]
        · simp [bytesCompare, h1, h2, ih ys]

theorem bc_trans (a : List Nat) :
    ∀ b c, bytesCompare a b = -1 → bytesCompare b c = -1 →
      bytesCompare a c = -1 := by
  induction a with
  | nil =>
    intro b c hab hbc
    cases c with
    | nil =>
      cases b with
      | nil => exact hab
      | cons y ys => simp [bytesCompare] at hbc
    | cons z zs => rfl
  | cons x xs ih =>
    intro b c hab hbc
    cases b with
    | nil => simp [bytesCompare] at hab
    | cons y ys =>
      cases c with
      | nil => simp [bytesCompare] at hbc
      | cons z zs =>
        rw [bytesCompare] at hab hbc ⊢
        split at hab
        · -- x < y
          rename_i h1
          split at hbc
          · rename_i h3
            rw [if_pos (by omega)]
          · split at hbc
            · omega
            · rename_i h3 h4
              have hyz : y = z := by omega
              rw [if_pos (by omega)]
        · split at hab
          · omega
          · rename_i h1 h2
            have hxy : x = y := by omega
            split at hbc
            · rename_i h3
              rw [if_pos (by omega)]
            · split at hbc
              · omega
              · rename_i h3 h4
                have hyz : y = z := by omega
                rw [if_neg (by omega), if_neg (by omega)]
                exact ih ys zs hab hbc

/-! ## In-order contents of a tree -/

/- The in-order flattening of a subtree: `first`'s entries, then for each
element the pair itself followed by its `after`-subtree's entries. -/
mutual
def entriesN : node → List pair
  | .mk first elems => entriesO first ++ entriesL elems
def entriesO : Option node → List pair
  | none => []
  | some n => entriesN n
def entriesL : List (pair × Option node) → List pair
  | [] => []
  | e :: rest => e.1 :: (entriesO e.2 ++ entriesL rest)
end

/-- Strict key order on pairs. -/
def ltP (a b : pair) : Prop := bytesCompare a.Key b.Key = -1

theorem ltP_irrefl (a b : pair) (h : a.Key = b.Key) : ¬ ltP a b := by
  intro hc
  rw [ltP, h, bc_refl] at hc
  omega

theorem ltP_asymm (a b : pair) (h1 : ltP a b) (h2 : ltP b a) : False := by
  rw [ltP] at h1 h2
  rw [bc_swap] at h2
  omega

theorem ltP_trans (a b c : pair) (h1 : ltP a b) (h2 : ltP b c) : ltP a c :=
  bc_trans a.Key b.Key c.Key h1 h2

/-- Insert-or-replace into a key-sorted list: the specification of one
`Put`. -/
def insSorted : List pair → pair → List pair
  | [], x => [x]
  | p :: rest, x =>
    if bytesCompare x.Key p.Key = 0 then x :: rest
    else if bytesCompare x.Key p.Key = -1 then x :: p :: rest
    else p :: insSorted rest x

theorem insSorted_mem (x : pair) :
    ∀ (l : List pair) (q : pair), q ∈ insSorted l x → q ∈ l ∨ q = x := by
  intro l
  induction l with
  | nil =>
    intro q hq
    simp [insSorted] at hq
    exact Or.inr hq
  | cons p rest ih =>
    intro q hq
    rw [insSorted] at hq
    by_cases h0 : bytesCompare x.Key p.Key = 0
    · rw [if_pos h0] at hq
      rcases List.mem_cons.mp hq with rfl | hq
      · exact Or.inr rfl
      · exact Or.inl (List.mem_cons_of_mem p hq)
    · rw [if_neg h0] at hq
      by_cases h1 : bytesCompare x.Key p.Key = -1
      · rw [if_pos h1] at hq
        rcases List.mem_cons.mp hq with rfl | hq
        · exact Or.inr rfl
        · exact Or.inl hq
      · rw [if_neg h1] at hq
        rcases List.mem_cons.mp hq with rfl | hq
        · exact Or.inl (List.mem_cons_self q rest)
        · rcases ih q hq with hm | hm
          · exact Or.inl (List.mem_cons_of_mem p hm)
          · exact Or.inr hm

theorem insSorted_sortedE (x : pair) :
    ∀ (l : List pair), l.Pairwise ltP → (insSorted l x).Pairwise ltP := by
  intro l
  induction l with
  | nil => intro _; simp [insSorted, List.pairwise_cons]
  | cons p rest ih =>
    intro hs
    obtain ⟨hp, hrest⟩ := List.pairwise_cons.mp hs
    rw [insSorted]
    by_cases h0 : bytesCompare x.Key p.Key = 0
    · rw [if_pos h0]
      refine List.pairwise_cons.mpr ⟨?_, hrest⟩
      intro q hq
      have hk : x.Key = p.Key := (bc_eq_iff x.Key p.Key).mp h0
      rw [ltP, hk]
      exact hp q hq
    · rw [if_neg h0]
      by_cases h1 : bytesCompare x.Key p.Key = -1
      · rw [if_pos h1]
        refine List.pairwise_cons.mpr ⟨?_, hs⟩
        intro q hq
        rcases List.mem_cons.mp hq with rfl | hq
        · exact h1
        · exact ltP_trans x p q h1 (hp q hq)
      · rw [if_neg h1]
        refine List.pairwise_cons.mpr ⟨?_, ih hrest⟩
        intro q hq
        rcases insSorted_mem x rest q hq with hm | rfl
        · exact hp q hm
        · rw [ltP, bc_swap]
          rcases bc_cases q.Key p.Key with h | h | h
          · exact absurd h h1
          · exact absurd h h0
          · rw [h]

theorem insSorted_localize (x : pair) :
    ∀ (A B C : List pair), (∀ a ∈ A, ltP a x) → (∀ c ∈ C, ltP x c) →
      insSorted (A ++ B ++ C) x = A ++ insSorted B x ++ C := by
  intro A
  induction A with
  | nil =>
    intro B
    induction B with
    | nil =>
      intro C _ hC
      cases C with
      | nil => rfl
      | cons c cs =>
        have hc := hC c (List.mem_cons_self c cs)
        rw [ltP] at hc
        show insSorted (c :: cs) x = [x] ++ (c :: cs)
        rw [insSorted, if_neg (by omega), if_pos hc]
        rfl
    | cons b bs ih =>
      intro C hA hC
      have hrec := ih C (fun a ha => absurd ha (by simp)) hC
      simp only [List.nil_append] at hrec
      show insSorted (b :: (bs ++ C)) x = insSorted (b :: bs) x ++ C
      conv_rhs => rw [insSorted]
      rw [insSorted]
      by_cases h0 : bytesCompare x.Key b.Key = 0
      · rw [if_pos h0, if_pos h0]
        rfl
      · rw [if_neg h0, if_neg h0]
        by_cases h1 : bytesCompare x.Key b.Key = -1
        · rw [if_pos h1, if_pos h1]
          rfl
        · rw [if_neg h1, if_neg h1]
          rw [List.cons_append, hrec]
  | cons a as ih =>
    intro B C hA hC
    have ha := hA a (List.mem_cons_self a as)
    rw [ltP] at ha
    have h1 : bytesCompare x.Key a.Key = 1 := by
      rw [bc_swap, ha]
      rfl
    show insSorted (a :: (as ++ B ++ C)) x = a :: (as ++ insSorted B x ++ C)
    rw [insSorted, if_neg (by omega), if_neg (by omega)]
    congr 1
    exact ih B C (fun a2 ha2 => hA a2 (List.mem_cons_of_mem a ha2)) hC

theorem insSorted_replace (x p : pair) :
    ∀ (A R : List pair), (∀ a ∈ A, ltP a x) → bytesCompare x.Key p.Key = 0 →
      insSorted (A ++ p :: R) x = A ++ x :: R := by
  intro A
  induction A with
  | nil =>
    intro R _ h0
    show insSorted (p :: R) x = x :: R
    rw [insSorted, if_pos h0]
  | cons a as ih =>
    intro R hA h0
    have ha := hA a (List.mem_cons_self a as)
    rw [ltP] at ha
    have h1 : bytesCompare x.Key a.Key = 1 := by
      rw [bc_swap, ha]
      rfl
    show insSorted (a :: (as ++ p :: R)) x = a :: (as ++ x :: R)
    rw [insSorted, if_neg (by omega), if_neg (by omega)]
    congr 1
    exact ih R (fun a2 ha2 => hA a2 (List.mem_cons_of_mem a ha2)) h0

/-! ## Decomposing `entriesL` -/

theorem entriesL_append :
    ∀ (l1 l2 : List (pair × Option node)),
      entriesL (l1 ++ l2) = entriesL l1 ++ entriesL l2 := by
  intro l1
  induction l1 with
  | nil => intro l2; rfl
  | cons e rest ih =>
    intro l2
    rw [List.cons_append, entriesL, entriesL, ih l2]
    simp [List.append_assoc]

theorem entriesL_decomp (elems : List (pair × Option node)) (j : Nat)
    (e : pair × Option node) (he : elems.get? j = some e) :
    entriesL elems
      = entriesL (elems.take j)
        ++ e.1 :: (entriesO e.2 ++ entriesL (elems.drop (j + 1))) := by
  obtain ⟨hj, hget⟩ := List.get?_eq_some.mp he
  have hd : elems.drop j = e :: elems.drop (j + 1) := by
    rw [List.drop_eq_getElem_cons hj]
    congr 1
  conv_lhs => rw [← List.take_append_drop j elems]
  rw [entriesL_append, hd, entriesL]

theorem entriesL_insertAt (elems : List (pair × Option node)) (j : Nat)
    (a : pair × Option node) :
    entriesL (insertAt elems j a)
      = entriesL (elems.take j)
        ++ a.1 :: (entriesO a.2 ++ entriesL (elems.drop j)) := by
  rw [insertAt, entriesL_append, entriesL]

theorem entriesL_set (elems : List (pair × Option node)) (j : Nat)
    (v : pair × Option node) (hj : j < elems.length) :
    entriesL (elems.set j v)
      = entriesL (elems.take j)
        ++ v.1 :: (entriesO v.2 ++ entriesL (elems.drop (j + 1))) := by
  rw [List.set_eq_take_cons_drop v hj, entriesL_append, entriesL]

/-! ## Correctness of the binary search -/

theorem elAt_get? (elems : List (pair × Option node)) (j : Nat)
    (hj : j < elems.length) : elems.get? j = some (elAt elems j) := by
  rw [List.get?_eq_get hj, elAt, List.getD_eq_get?, List.get?_eq_get hj]
  rfl

theorem sbLoop_spec (x : pair) (elems : List (pair × Option node))
    (hsort : ∀ i j : Nat, i < j → j < elems.length →
      ltP (elAt elems i).1 (elAt elems j).1) :
    ∀ (fuel : Nat) (l r : Int),
      (r + 1 - l).toNat < fuel →
      0 ≤ l → l ≤ r + 1 → r < (elems.length : Int) →
      (∀ i : Nat, (i : Int) < l → i < elems.length → ltP (elAt elems i).1 x) →
      (∀ i : Nat, r < (i : Int) → i < elems.length → ltP x (elAt elems i).1) →
      ((sbLoop x elems fuel l r).2 = true →
          (sbLoop x elems fuel l r).1 < elems.length ∧
          bytesCompare (elAt elems (sbLoop x elems fuel l r).1).1.Key x.Key = 0) ∧
      ((sbLoop x elems fuel l r).2 = false →
          (sbLoop x elems fuel l r).1 ≤ elems.length ∧
          (∀ i : Nat, i < (sbLoop x elems fuel l r).1 → i < elems.length →
            ltP (elAt elems i).1 x) ∧
          (∀ i : Nat, (sbLoop x elems fuel l r).1 ≤ i → i < elems.length →
            ltP x (elAt elems i).1)) := by
  intro fuel
  induction fuel with
  | zero =>
    intro l r hf
    omega
  | succ f ih =>
    intro l r hf h0 hlr hrlen hlow hhigh
    by_cases hc : l ≤ r
    case neg =>
      have hres : sbLoop x elems (f + 1) l r = (l.toNat, false) := by
        rw [sbLoop, if_neg hc]
      rw [hres]
      refine ⟨by simp, fun _ => ⟨by omega, ?_, ?_⟩⟩
      · intro i hi hilen
        exact hlow i (by omega) hilen
      · intro i hi hilen
        exact hhigh i (by omega) hilen
    case pos =>
      have hmb : l ≤ sbMid l r ∧ sbMid l r ≤ r := by
        have h1 : ((r - l).toNat / 2) ≤ (r - l).toNat := Nat.div_le_self _ _
        unfold sbMid
        omega
      have hmlen : (sbMid l r).toNat < elems.length := by omega
      have hmnat : ((sbMid l r).toNat : Int) = sbMid l r := by omega
      rcases bc_cases (elAt elems (sbMid l r).toNat).1.Key x.Key with hcv | hcv | hcv
      · -- probe < x: left = mid + 1
        have hres : sbLoop x elems (f + 1) l r
            = sbLoop x elems f (sbMid l r + 1) r := by
          rw [sbLoop, if_pos hc, if_neg (by rw [hcv]; omega),
            if_neg (by rw [hcv]; omega)]
        rw [hres]
        refine ih (sbMid l r + 1) r (by omega) (by omega) (by omega) hrlen ?_ hhigh
        intro i hi hilen
        by_cases him : i = (sbMid l r).toNat
        · rw [him]
          exact hcv
        · have : (i : Int) < sbMid l r := by omega
          exact ltP_trans _ _ _ (hsort i (sbMid l r).toNat (by omega) hmlen) hcv
      · -- exact hit
        have hres : sbLoop x elems (f + 1) l r = ((sbMid l r).toNat, true) := by
          rw [sbLoop, if_pos hc, if_pos hcv]
        rw [hres]
        exact ⟨fun _ => ⟨hmlen, hcv⟩, fun hfalse => absurd hfalse (by simp)⟩
      · -- probe > x: right = mid - 1
        have hxm : ltP x (elAt elems (sbMid l r).toNat).1 := by
          rw [ltP, bc_swap, hcv]
        have hres : sbLoop x elems (f + 1) l r
            = sbLoop x elems f l (sbMid l r - 1) := by
          rw [sbLoop, if_pos hc, if_neg (by rw [hcv]; omega),
            if_pos (by rw [hcv]; omega)]
        rw [hres]
        refine ih l (sbMid l r - 1) (by omega) h0 (by omega) (by omega) hlow ?_
        intro i hi hilen
        by_cases him : i = (sbMid l r).toNat
        · rw [him]
          exact hxm
        · have : sbMid l r < (i : Int) := by omega
          exact ltP_trans _ _ _ hxm (hsort (sbMid l r).toNat i (by omega) hilen)

theorem shouldBe_spec (x : pair) (elems : List (pair × Option node))
    (hsort : ∀ i j : Nat, i < j → j < elems.length →
      ltP (elAt elems i).1 (elAt elems j).1) :
    ((shouldBe elems x).2 = true →
        (shouldBe elems x).1 < elems.length ∧
        bytesCompare (elAt elems (shouldBe elems x).1).1.Key x.Key = 0) ∧
    ((shouldBe elems x).2 = false →
        (shouldBe elems x).1 ≤ elems.length ∧
        (∀ i : Nat, i < (shouldBe elems x).1 → i < elems.length →
          ltP (elAt elems i).1 x) ∧
        (∀ i : Nat, (shouldBe elems x).1 ≤ i → i < elems.length →
          ltP x (elAt elems i).1)) := by
  by_cases hz : elems.length = 0
  · have hres : shouldBe elems x = (0, false) := by
      rw [shouldBe, if_pos hz]
    rw [hres]
    refine ⟨fun hc => by simp at hc, fun _ => ⟨by omega, ?_, ?_⟩⟩
    · intro i hi
      omega
    · intro i _ hi
      omega
  · have hres : shouldBe elems x
        = sbLoop x elems (elems.length + 1) 0 ((elems.length : Int) - 1) := by
      rw [shouldBe, if_neg hz]
    rw [hres]
    refine sbLoop_spec x elems hsort (elems.length + 1) 0 ((elems.length : Int) - 1)
      (by omega) (by omega) (by omega) (by omega) ?_ ?_
    · intro i hi hilen
      omega
    · intro i hi hilen
      omega

/-! ## Sorted-contents utilities -/

theorem elAt_fst_mem (l : List (pair × Option node)) :
    ∀ j, j < l.length → (elAt l j).1 ∈ entriesL l := by
  induction l with
  | nil => intro j hj; simp at hj
  | cons e rest ih =>
    intro j hj
    cases j with
    | zero =>
      rw [entriesL]
      exact List.mem_cons_self _ _
    | succ j2 =>
      rw [entriesL]
      refine List.mem_cons_of_mem _ (List.mem_append_right _ ?_)
      exact ih j2 (by simpa using hj)

theorem keys_sorted_of_entriesL (l : List (pair × Option node))
    (hpw : (entriesL l).Pairwise ltP) :
    ∀ i j, i < j → j < l.length → ltP (elAt l i).1 (elAt l j).1 := by
  induction l with
  | nil => intro i j _ hj; simp at hj
  | cons e rest ih =>
    intro i j hij hj
    rw [entriesL] at hpw
    obtain ⟨hhead, htail⟩ := List.pairwise_cons.mp hpw
    cases i with
    | zero =>
      cases j with
      | zero => omega
      | succ j2 =>
        refine hhead _ (List.mem_append_right _ ?_)
        exact elAt_fst_mem rest j2 (by simpa using hj)
    | succ i2 =>
      cases j with
      | zero => omega
      | succ j2 =>
        exact ih ((List.pairwise_append.mp htail).2.1) i2 j2 (by omega)
          (by simpa using hj)

theorem sep_lt_after (l : List (pair × Option node))
    (hpw : (entriesL l).Pairwise ltP) :
    ∀ j, j < l.length → ∀ q ∈ entriesO (elAt l j).2, ltP (elAt l j).1 q := by
  induction l with
  | nil => intro j hj; simp at hj
  | cons e rest ih =>
    intro j hj q hq
    rw [entriesL] at hpw
    obtain ⟨hhead, htail⟩ := List.pairwise_cons.mp hpw
    cases j with
    | zero => exact hhead q (List.mem_append_left _ hq)
    | succ j2 =>
      exact ih ((List.pairwise_append.mp htail).2.1) j2 (by simpa using hj) q hq

theorem after_pairwise (l : List (pair × Option node))
    (hpw : (entriesL l).Pairwise ltP) :
    ∀ j e, l.get? j = some e → (entriesO e.2).Pairwise ltP := by
  intro j e he
  rw [entriesL_decomp l j e he] at hpw
  have h1 := (List.pairwise_append.mp hpw).2.1
  have h2 := (List.pairwise_cons.mp h1).2
  exact (List.pairwise_append.mp h2).1

theorem entriesL_all_lt (x : pair) (l : List (pair × Option node))
    (hpw : (entriesL l).Pairwise ltP) :
    ∀ j, j < l.length → (∀ i, i ≤ j → ltP (elAt l i).1 x) →
      ∀ q ∈ entriesL (l.take j), ltP q x := by
  induction l with
  | nil => intro j hj; simp at hj
  | cons e rest ih =>
    intro j hj hlow q hq
    rw [entriesL] at hpw
    obtain ⟨hhead, htail⟩ := List.pairwise_cons.mp hpw
    cases j with
    | zero => simp [entriesL] at hq
    | succ j2 =>
      rw [List.take_succ_cons, entriesL] at hq
      rcases List.mem_cons.mp hq with rfl | hq
      · exact hlow 0 (by omega)
      · rcases List.mem_append.mp hq with hq | hq
        · -- q sits under e's subtree: q < the next separator ≤ x
          have hnext : (elAt rest 0).1 ∈ entriesL rest :=
            elAt_fst_mem rest 0 (by simp only [List.length_cons] at hj; omega)
          have h1 : ltP q (elAt rest 0).1 :=
            (List.pairwise_append.mp htail).2.2 q hq _ hnext
          exact ltP_trans _ _ _ h1 (hlow 1 (by omega))
        · refine ih ((List.pairwise_append.mp htail).2.1) j2 (by simpa using hj)
            (fun i hi => hlow (i + 1) (by omega)) q ?_
          · exact hq

theorem entriesL_all_gt (x : pair) (l : List (pair × Option node))
    (hpw : (entriesL l).Pairwise ltP)
    (hhigh : ∀ i, i < l.length → ltP x (elAt l i).1) :
    ∀ q ∈ entriesL l, ltP x q := by
  induction l with
  | nil => intro q hq; simp [entriesL] at hq
  | cons e rest ih =>
    intro q hq
    rw [entriesL] at hpw hq
    obtain ⟨hhead, htail⟩ := List.pairwise_cons.mp hpw
    rcases List.mem_cons.mp hq with rfl | hq
    · exact hhigh 0 (by simp)
    · rcases List.mem_append.mp hq with hq | hq
      · exact ltP_trans _ _ _ (hhigh 0 (by simp)) (hhead q (List.mem_append_left _ hq))
      · exact ih ((List.pairwise_append.mp htail).2.1)
          (fun i hi => hhigh (i + 1) (by simpa using hi)) q hq

theorem elAt_drop (l : List (pair × Option node)) :
    ∀ p i, elAt (l.drop p) i = elAt l (p + i) := by
  induction l with
  | nil => intro p i; cases p <;> rfl
  | cons e rest ih =>
    intro p i
    cases p with
    | zero =>
      rw [Nat.zero_add]
      rfl
    | succ p2 =>
      show elAt (rest.drop p2) i = elAt (e :: rest) (p2 + 1 + i)
      rw [ih p2 i, show p2 + 1 + i = (p2 + i) + 1 from by omega]
      rfl

theorem ltP_key_right (a b c : pair) (h : ltP a b) (hk : b.Key = c.Key) :
    ltP a c := by
  rw [ltP] at h ⊢
  rw [← hk]
  exact h

theorem ltP_key_left (a b c : pair) (h : ltP b c) (hk : b.Key = a.Key) :
    ltP a c := by
  rw [ltP] at h ⊢
  rw [← hk]
  exact h

theorem after_lt_next (l : List (pair × Option node))
    (hpw : (entriesL l).Pairwise ltP) :
    ∀ j, j + 1 < l.length → ∀ q ∈ entriesO (elAt l j).2,
      ltP q (elAt l (j + 1)).1 := by
  induction l with
  | nil => intro j hj; simp at hj
  | cons e rest ih =>
    intro j hj q hq
    rw [entriesL] at hpw
    obtain ⟨hhead, htail⟩ := List.pairwise_cons.mp hpw
    cases j with
    | zero =>
      refine (List.pairwise_append.mp htail).2.2 q hq _ ?_
      exact elAt_fst_mem rest 0 (by simp only [List.length_cons] at hj; omega)
    | succ j2 =>
      exact ih ((List.pairwise_append.mp htail).2.1) j2
        (by simpa using hj) q hq

theorem entriesL_take_lt_sep (l : List (pair × Option node))
    (hpw : (entriesL l).Pairwise ltP) :
    ∀ j, j < l.length → ∀ q ∈ entriesL (l.take j), ltP q (elAt l j).1 := by
  induction l with
  | nil => intro j hj; simp at hj
  | cons e rest ih =>
    intro j hj q hq
    rw [entriesL] at hpw
    obtain ⟨hhead, htail⟩ := List.pairwise_cons.mp hpw
    cases j with
    | zero => simp [entriesL] at hq
    | succ j2 =>
      rw [List.take_succ_cons, entriesL] at hq
      have hj2 : j2 < rest.length := by simpa using hj
      rcases List.mem_cons.mp hq with rfl | hq
      · exact hhead _ (List.mem_append_right _ (elAt_fst_mem rest j2 hj2))
      · rcases List.mem_append.mp hq with hq | hq
        · exact (List.pairwise_append.mp htail).2.2 q hq _ (elAt_fst_mem rest j2 hj2)
        · exact ih ((List.pairwise_append.mp htail).2.1) j2 hj2 q hq

theorem entriesL_split (l : List (pair × Option node)) (j : Nat) :
    entriesL l = entriesL (l.take j) ++ entriesL (l.drop j) := by
  conv_lhs => rw [← List.take_append_drop j l]
  rw [entriesL_append]

theorem elAt_set_self (l : List (pair × Option node)) (j : Nat)
    (v : pair × Option node) (hj : j < l.length) : elAt (l.set j v) j = v := by
  rw [elAt, List.getD_eq_get?, List.get?_set_eq]
  rw [List.get?_eq_get hj]
  rfl

theorem elAt_set_ne (l : List (pair × Option node)) (i j : Nat)
    (v : pair × Option node) (hij : j ≠ i) : elAt (l.set j v) i = elAt l i := by
  rw [elAt, elAt, List.getD_eq_get?, List.getD_eq_get?, List.get?_set_ne _ _ hij]

/-- The contents a caller reads off a `node.put` result. -/
def entriesOfPut : PutRes → List pair
  | .one n => entriesN n
  | .split l sep r => entriesN l ++ sep :: entriesN r

theorem popupStep_entries (total : Nat) (first : Option node)
    (elems : List (pair × Option node)) (pr : PutRes)
    (h : popupStep total first elems = .ok pr) :
    entriesOfPut pr = entriesO first ++ entriesL elems := by
  unfold popupStep at h
  by_cases hov : overflow total elems = false
  · rw [if_pos hov] at h
    injection h with h
    rw [← h, entriesOfPut, entriesN]
  · rw [if_neg hov] at h
    simp only [] at h
    rcases he : elems.get? (elems.length / 2) with _ | e
    · rw [he] at h
      exact absurd h (by simp)
    · rw [he] at h
      simp only at h
      by_cases hr : elems.length ≤ elems.length / 2 + 1
      · rw [if_pos hr] at h
        exact absurd h (by simp)
      · rw [if_neg hr] at h
        injection h with h
        rw [← h, entriesOfPut, entriesN, entriesN,
          entriesL_decomp elems (elems.length / 2) e he]
        simp [List.append_assoc]

theorem insSorted_front (x : pair) :
    ∀ (C : List pair), (∀ c ∈ C, ltP x c) → insSorted C x = x :: C := by
  intro C hC
  cases C with
  | nil => rfl
  | cons c cs =>
    have hc := hC c (List.mem_cons_self c cs)
    rw [ltP] at hc
    rw [insSorted, if_neg (by omega), if_pos hc]

theorem insSorted_right (x : pair) (B C : List pair)
    (hC : ∀ c ∈ C, ltP x c) :
    insSorted (B ++ C) x = insSorted B x ++ C := by
  have h := insSorted_localize x [] B C (by intro a ha; simp at ha) hC
  simpa using h

theorem insSorted_mid (x e1 : pair) (F T B C : List pair)
    (hF : ∀ a ∈ F, ltP a x) (hT : ∀ a ∈ T, ltP a x) (he1 : ltP e1 x)
    (hC : ∀ c ∈ C, ltP x c) :
    insSorted (F ++ (T ++ (e1 :: (B ++ C)))) x
      = F ++ (T ++ (e1 :: (insSorted B x ++ C))) := by
  have h := insSorted_localize x (F ++ T ++ [e1]) B C (by
    intro a ha
    rcases List.mem_append.mp ha with ha | ha
    · rcases List.mem_append.mp ha with ha | ha
      · exact hF a ha
      · exact hT a ha
    · rcases List.mem_singleton.mp ha with rfl
      exact he1) hC
  simpa [List.append_assoc] using h

theorem insSorted_rep_mid (x e1 : pair) (F T R : List pair)
    (hF : ∀ a ∈ F, ltP a x) (hT : ∀ a ∈ T, ltP a x)
    (h0 : bytesCompare x.Key e1.Key = 0) :
    insSorted (F ++ (T ++ (e1 :: R))) x = F ++ (T ++ (x :: R)) := by
  have h := insSorted_replace x e1 (F ++ T) R (by
    intro a ha
    rcases List.mem_append.mp ha with ha | ha
    · exact hF a ha
    · exact hT a ha) h0
  simpa [List.append_assoc] using h

/-- When `y` sits strictly between the keys below `pos` and the keys from
`pos` on, the binary search lands exactly at `(pos, false)`. -/
theorem shouldBe_pos_of_bounds (y : pair) (elems : List (pair × Option node))
    (hks : ∀ i j : Nat, i < j → j < elems.length →
      ltP (elAt elems i).1 (elAt elems j).1)
    (pos : Nat) (hposlen : pos ≤ elems.length)
    (hlo : ∀ i, i < pos → i < elems.length → ltP (elAt elems i).1 y)
    (hhi : ∀ i, pos ≤ i → i < elems.length → ltP y (elAt elems i).1) :
    shouldBe elems y = (pos, false) := by
  have spec := shouldBe_spec y elems hks
  by_cases hex : (shouldBe elems y).2 = true
  · obtain ⟨hplen, hkey⟩ := spec.1 hex
    have hkeq : (elAt elems (shouldBe elems y).1).1.Key = y.Key :=
      (bc_eq_iff _ _).mp hkey
    by_cases hc : (shouldBe elems y).1 < pos
    · exact absurd (hlo _ hc hplen) (ltP_irrefl _ _ hkeq)
    · have h1 := hhi _ (by omega) hplen
      rw [ltP] at h1
      rw [hkeq, bc_refl] at h1
      omega
  · have hex2 : (shouldBe elems y).2 = false := by
      cases hb : (shouldBe elems y).2
      · rfl
      · exact absurd hb hex
    obtain ⟨hle, hlow2, hhigh2⟩ := spec.2 hex2
    have hpp : (shouldBe elems y).1 = pos := by
      by_cases hc : (shouldBe elems y).1 < pos
      · have h1 := hlo ((shouldBe elems y).1) hc (by omega)
        have h2 := hhigh2 ((shouldBe elems y).1) (by omega) (by omega)
        exact absurd h2 (fun h2 => ltP_asymm _ _ h1 h2)
      · by_cases hc2 : pos < (shouldBe elems y).1
        · have h1 := hlow2 pos hc2 (by omega)
          have h2 := hhi pos (by omega) (by omega)
          exact absurd h2 (fun h2 => ltP_asymm _ _ h1 h2)
        · omega
    exact Prod.ext_iff.mpr ⟨hpp, hex2⟩

theorem entriesL_take_succ (l : List (pair × Option node)) (j : Nat)
    (e : pair × Option node) (he : l.get? j = some e) :
    entriesL (l.take (j + 1)) = entriesL (l.take j) ++ (e.1 :: entriesO e.2) := by
  rw [List.take_succ, ← List.get?_eq_getElem?, he, entriesL_append]
  simp [entriesL, entriesO]

theorem insSorted_mid_leaf (x e1 : pair) (F T C : List pair)
    (hF : ∀ a ∈ F, ltP a x) (hT : ∀ a ∈ T, ltP a x) (he1 : ltP e1 x)
    (hC : ∀ c ∈ C, ltP x c) :
    insSorted (F ++ (T ++ (e1 :: C))) x = F ++ (T ++ (e1 :: (x :: C))) := by
  have h := insSorted_localize x (F ++ T ++ [e1]) [] C (by
    intro a ha
    rcases List.mem_append.mp ha with ha | ha
    · rcases List.mem_append.mp ha with ha | ha
      · exact hF a ha
      · exact hT a ha
    · rcases List.mem_singleton.mp ha with rfl
      exact he1) hC
  simpa [List.append_assoc, insSorted] using h

theorem putNode_entries (total : Nat) :
    ∀ (fuel : Nat) (n : node) (x : pair) (pr : PutRes),
      (entriesN n).Pairwise ltP →
      putNode total fuel n x = .ok pr →
      entriesOfPut pr = insSorted (entriesN n) x := by
  intro fuel
  induction fuel with
  | zero =>
    intro n x pr _ h
    exact absurd h (by cases n; simp [putNode])
  | succ f ih =>
    intro n x pr hs h
    cases n with
    | mk first elems =>
    rw [putNode.eq_def] at h
    simp only [] at h
    rw [entriesN] at hs ⊢
    have hsF := (List.pairwise_append.mp hs).1
    have hsL := (List.pairwise_append.mp hs).2.1
    have hcross := (List.pairwise_append.mp hs).2.2
    have hks := keys_sorted_of_entriesL elems hsL
    have spec := shouldBe_spec x elems hks
    by_cases hsb2 : (shouldBe elems x).2 = true
    · -- exact hit: replace the element in place
      rw [if_pos hsb2] at h
      obtain ⟨hposlen, hkey⟩ := spec.1 hsb2
      rw [elAt_get? elems (shouldBe elems x).1 hposlen] at h
      simp only [] at h
      injection h with h
      have hkeq : (elAt elems (shouldBe elems x).1).1.Key = x.Key :=
        (bc_eq_iff _ _).mp hkey
      have hval : insSorted (entriesO first ++ entriesL elems) x
          = entriesO first ++ (entriesL (elems.take (shouldBe elems x).1)
            ++ (x :: (entriesO (elAt elems (shouldBe elems x).1).2
              ++ entriesL (elems.drop ((shouldBe elems x).1 + 1))))) := by
        conv_lhs => rw [entriesL_decomp elems (shouldBe elems x).1 _
          (elAt_get? elems (shouldBe elems x).1 hposlen)]
        exact insSorted_rep_mid x _ _ _ _
          (fun a ha => ltP_key_right _ _ _
            (hcross a ha _ (elAt_fst_mem elems _ hposlen)) hkeq)
          (fun a ha => ltP_key_right _ _ _
            (entriesL_take_lt_sep elems hsL _ hposlen a ha) hkeq)
          (by rw [bc_swap, hkey]; rfl)
      rw [← h, entriesOfPut, entriesN,
        entriesL_set elems (shouldBe elems x).1 _ hposlen, hval]
    · -- no exact hit
      have hsb2f : (shouldBe elems x).2 = false := by
        cases hb : (shouldBe elems x).2
        · rfl
        · exact absurd hb hsb2
      rw [if_neg hsb2] at h
      obtain ⟨hple, hlow, hhigh⟩ := spec.2 hsb2f
      by_cases hp0 : (shouldBe elems x).1 = 0
      · -- position 0: descend into first, or insert at the front
        rw [if_pos hp0] at h
        cases hfst : first with
        | some c =>
          subst hfst
          simp only [] at h
          rw [entriesO] at hsF
          have hCb : ∀ q ∈ entriesL elems, ltP x q :=
            entriesL_all_gt x elems hsL (fun i hi => hhigh i (by omega) hi)
          have hval : insSorted (entriesO (some c) ++ entriesL elems) x
              = insSorted (entriesN c) x ++ entriesL elems := by
            conv_lhs => rw [entriesO]
            exact insSorted_right x _ _ hCb
          rcases hrec : putNode total f c x with pr2 | m | m
          rotate_left
          · rw [hrec] at h
            exact absurd h (by simp)
          · rw [hrec] at h
            exact absurd h (by simp)
          rw [hrec] at h
          cases pr2 with
          | one c2 =>
            simp only [] at h
            injection h with h
            have hihe := ih c x (.one c2) hsF hrec
            rw [entriesOfPut] at hihe
            rw [← h, entriesOfPut, entriesN, hval, entriesO, hihe]
          | split l sep r =>
            simp only [] at h
            have hihe := ih c x (.split l sep r) hsF hrec
            rw [entriesOfPut] at hihe
            have hsepmem : sep ∈ insSorted (entriesN c) x := by
              rw [← hihe]
              exact List.mem_append_right _ (List.mem_cons_self _ _)
            have hsep_hi : ∀ i, i < elems.length → ltP sep (elAt elems i).1 := by
              intro i hi
              rcases insSorted_mem x (entriesN c) sep hsepmem with hm | rfl
              · refine hcross sep ?_ _ (elAt_fst_mem elems i hi)
                rw [entriesO]
                exact hm
              · exact hhigh i (by omega) hi
            have hpos2 : shouldBe elems sep = (0, false) :=
              shouldBe_pos_of_bounds sep elems hks 0 (by omega)
                (fun i hi _ => absurd hi (by omega))
                (fun i _ hi => hsep_hi i hi)
            rw [hpos2] at h
            simp only [] at h
            have hpe := popupStep_entries total (some l) _ pr h
            have hins : entriesL (insertAt elems 0 (sep, some r))
                = sep :: (entriesN r ++ entriesL elems) := by
              rw [entriesL_insertAt]
              simp [entriesL, entriesO]
            rw [hpe, hins, hval, ← hihe, entriesO]
            simp [List.append_assoc]
        | none =>
          subst hfst
          simp only [] at h
          have hpe := popupStep_entries total none _ pr h
          have hins : entriesL (insertAt elems (shouldBe elems x).1 (x, none))
              = x :: entriesL elems := by
            rw [hp0, entriesL_insertAt]
            simp [entriesL, entriesO]
          have hval : insSorted (entriesO none ++ entriesL elems) x
              = x :: entriesL elems := by
            simp only [entriesO, List.nil_append]
            exact insSorted_front x _
              (entriesL_all_gt x elems hsL (fun i hi => hhigh i (by omega) hi))
          rw [hpe, hins, hval, entriesO]
          rfl
      · -- positive position: work through slot pos-1
        rw [if_neg hp0] at h
        have hp1len : (shouldBe elems x).1 - 1 < elems.length := by omega
        rw [elAt_get? elems ((shouldBe elems x).1 - 1) hp1len] at h
        simp only [] at h
        have hsep_x : ltP (elAt elems ((shouldBe elems x).1 - 1)).1 x :=
          hlow _ (by omega) hp1len
        have hFb : ∀ a ∈ entriesO first, ltP a x := fun a ha =>
          ltP_trans _ _ _ (hcross a ha _ (elAt_fst_mem elems _ hp1len)) hsep_x
        have hTb : ∀ a ∈ entriesL (elems.take ((shouldBe elems x).1 - 1)),
            ltP a x := fun a ha =>
          ltP_trans _ _ _ (entriesL_take_lt_sep elems hsL _ hp1len a ha) hsep_x
        have hDb : ∀ q ∈ entriesL (elems.drop (shouldBe elems x).1), ltP x q := by
          have hpwd : (entriesL (elems.drop (shouldBe elems x).1)).Pairwise ltP := by
            have h2 := hsL
            rw [entriesL_split elems (shouldBe elems x).1] at h2
            exact (List.pairwise_append.mp h2).2.1
          refine entriesL_all_gt x _ hpwd ?_
          intro i hi
          rw [elAt_drop]
          refine hhigh _ (by omega) ?_
          rw [List.length_drop] at hi
          omega
        have hval : insSorted (entriesO first ++ entriesL elems) x
            = entriesO first ++ (entriesL (elems.take ((shouldBe elems x).1 - 1))
              ++ ((elAt elems ((shouldBe elems x).1 - 1)).1
                :: (insSorted (entriesO (elAt elems ((shouldBe elems x).1 - 1)).2) x
                  ++ entriesL (elems.drop (shouldBe elems x).1)))) := by
          conv_lhs => rw [entriesL_decomp elems ((shouldBe elems x).1 - 1) _
            (elAt_get? elems ((shouldBe elems x).1 - 1) hp1len)]
          rw [show (shouldBe elems x).1 - 1 + 1 = (shouldBe elems x).1 from by omega]
          exact insSorted_mid x _ _ _ _ _ hFb hTb hsep_x hDb
        rcases hafter : (elAt elems ((shouldBe elems x).1 - 1)).2 with _ | c
        · -- no child: insert at pos
          rw [hafter] at h
          have hpe := popupStep_entries total first _ pr h
          have htake : entriesL (elems.take (shouldBe elems x).1)
              = entriesL (elems.take ((shouldBe elems x).1 - 1))
                ++ [(elAt elems ((shouldBe elems x).1 - 1)).1] := by
            rw [show (shouldBe elems x).1 = ((shouldBe elems x).1 - 1) + 1 from by omega,
              entriesL_take_succ elems _ _ (elAt_get? elems _ hp1len), hafter]
            rfl
          have hins : entriesL (insertAt elems (shouldBe elems x).1 (x, none))
              = entriesL (elems.take ((shouldBe elems x).1 - 1))
                ++ ((elAt elems ((shouldBe elems x).1 - 1)).1
                  :: (x :: entriesL (elems.drop (shouldBe elems x).1))) := by
            rw [entriesL_insertAt, htake]
            simp [entriesL, entriesO, List.append_assoc]
          rw [hpe, hins, hval, hafter]
          simp [entriesO, insSorted]
        · -- child exists: descend
          rw [hafter] at h
          simp only [] at h
          have hpwc : (entriesN c).Pairwise ltP := by
            have h2 := after_pairwise elems hsL ((shouldBe elems x).1 - 1) _
              (elAt_get? elems ((shouldBe elems x).1 - 1) hp1len)
            rw [hafter, entriesO] at h2
            exact h2
          rcases hrec : putNode total f c x with pr2 | m | m
          rotate_left
          · rw [hrec] at h
            exact absurd h (by simp)
          · rw [hrec] at h
            exact absurd h (by simp)
          rw [hrec] at h
          cases pr2 with
          | one c2 =>
            simp only [] at h
            injection h with h
            have hihe := ih c x (.one c2) hpwc hrec
            rw [entriesOfPut] at hihe
            rw [← h, entriesOfPut, entriesN,
              entriesL_set elems ((shouldBe elems x).1 - 1) _ hp1len,
              show (shouldBe elems x).1 - 1 + 1 = (shouldBe elems x).1 from by omega,
              hval, hafter]
            simp only [entriesO, hihe]
          | split l sep r =>
            simp only [] at h
            have hihe := ih c x (.split l sep r) hpwc hrec
            rw [entriesOfPut] at hihe
            set E1 : List (pair × Option node) := elems.set ((shouldBe elems x).1 - 1)
              ((elAt elems ((shouldBe elems x).1 - 1)).1, some l) with hE1
            have hlen1 : E1.length = elems.length := by
              rw [hE1]
              exact List.length_set elems _ _
            have hfst1 : ∀ i, (elAt E1 i).1 = (elAt elems i).1 := by
              intro i
              by_cases hi : i = (shouldBe elems x).1 - 1
              · rw [hi, hE1, elAt_set_self _ _ _ hp1len]
              · rw [hE1, elAt_set_ne _ _ _ _ (fun hc => hi hc.symm)]
            have hks1 : ∀ i j, i < j → j < E1.length →
                ltP (elAt E1 i).1 (elAt E1 j).1 := by
              intro i j hij hj
              rw [hfst1 i, hfst1 j]
              refine hks i j hij ?_
              rw [hlen1] at hj
              exact hj
            have hsepmem : sep ∈ insSorted (entriesN c) x := by
              rw [← hihe]
              exact List.mem_append_right _ (List.mem_cons_self _ _)
            have hsep_lo : ltP (elAt elems ((shouldBe elems x).1 - 1)).1 sep := by
              rcases insSorted_mem x (entriesN c) sep hsepmem with hm | rfl
              · refine sep_lt_after elems hsL _ hp1len sep ?_
                rw [hafter, entriesO]
                exact hm
              · exact hsep_x
            have hsep_hi : ∀ i, (shouldBe elems x).1 ≤ i → i < elems.length →
                ltP sep (elAt elems i).1 := by
              intro i hi hilen
              rcases insSorted_mem x (entriesN c) sep hsepmem with hm | rfl
              · have h1 := after_lt_next elems hsL ((shouldBe elems x).1 - 1)
                  (by omega) sep (by rw [hafter, entriesO]; exact hm)
                rw [show (shouldBe elems x).1 - 1 + 1 = (shouldBe elems x).1 from
                  by omega] at h1
                by_cases hip : i = (shouldBe elems x).1
                · rw [hip]
                  exact h1
                · exact ltP_trans _ _ _ h1 (hks _ i (by omega) hilen)
              · exact hhigh i hi hilen
            have hpos2 : shouldBe E1 sep = ((shouldBe elems x).1, false) := by
              refine shouldBe_pos_of_bounds sep E1 hks1 _ (by rw [hlen1]; omega) ?_ ?_
              · intro i hi hilen
                rw [hfst1 i]
                by_cases hip : i = (shouldBe elems x).1 - 1
                · rw [hip]
                  exact hsep_lo
                · exact ltP_trans _ _ _ (hks i _ (by omega) hp1len) hsep_lo
              · intro i hi hilen
                rw [hfst1 i]
                refine hsep_hi i hi ?_
                rw [hlen1] at hilen
                exact hilen
            rw [hpos2] at h
            simp only [] at h
            have hpe := popupStep_entries total first _ pr h
            have hsetd : E1 = elems.take ((shouldBe elems x).1 - 1)
                ++ ((elAt elems ((shouldBe elems x).1 - 1)).1, some l)
                  :: elems.drop (shouldBe elems x).1 := by
              rw [hE1, List.set_eq_take_cons_drop _ hp1len,
                show (shouldBe elems x).1 - 1 + 1 = (shouldBe elems x).1 from by omega]
            have hlenT : (elems.take ((shouldBe elems x).1 - 1)).length
                = (shouldBe elems x).1 - 1 := by
              rw [List.length_take]
              omega
            have htake_gen : ∀ (A : List (pair × Option node)) v D,
                A.length = (shouldBe elems x).1 - 1 →
                (A ++ v :: D).take (shouldBe elems x).1 = A ++ [v] := by
              intro A v D hA
              rw [show (shouldBe elems x).1 = A.length + 1 from by omega,
                List.take_append]
              rfl
            have hdrop_gen : ∀ (A : List (pair × Option node)) v D,
                A.length = (shouldBe elems x).1 - 1 →
                (A ++ v :: D).drop (shouldBe elems x).1 = D := by
              intro A v D hA
              rw [show (shouldBe elems x).1 = A.length + 1 from by omega,
                List.drop_append]
              rfl
            have htake1 : E1.take (shouldBe elems x).1
                = elems.take ((shouldBe elems x).1 - 1)
                  ++ [((elAt elems ((shouldBe elems x).1 - 1)).1, some l)] := by
              rw [hsetd]
              exact htake_gen _ _ _ hlenT
            have hdrop1 : E1.drop (shouldBe elems x).1
                = elems.drop (shouldBe elems x).1 := by
              rw [hsetd]
              exact hdrop_gen _ _ _ hlenT
            have hins : entriesL (insertAt E1 (shouldBe elems x).1 (sep, some r))
                = entriesL (elems.take ((shouldBe elems x).1 - 1))
                  ++ ((elAt elems ((shouldBe elems x).1 - 1)).1
                    :: (entriesN l ++ (sep :: (entriesN r
                      ++ entriesL (elems.drop (shouldBe elems x).1))))) := by
              rw [entriesL_insertAt, htake1, hdrop1, entriesL_append]
              simp [entriesL, entriesO, List.append_assoc]
            rw [hpe, hins, hval, hafter, entriesO, ← hihe]
            simp [List.append_assoc]

/-! ## Correctness of `node.get` on sorted contents -/

theorem nodeSizeL_mem : ∀ (l : List (pair × Option node)) (e : pair × Option node),
    e ∈ l → nodeSizeO e.2 < nodeSizeL l := by
  intro l
  induction l with
  | nil => intro e he; simp at he
  | cons f rest ih =>
    intro e he
    rw [nodeSizeL]
    rcases List.mem_cons.mp he with rfl | he
    · omega
    · have := ih e he
      omega

theorem nodeSize_first_lt (first : Option node) (elems : List (pair × Option node))
    (c : node) (h : first = some c) :
    nodeSize c < nodeSize (.mk first elems) := by
  rw [nodeSize, h, nodeSizeO]
  omega

theorem nodeSize_slot_lt (first : Option node) (elems : List (pair × Option node))
    (j : Nat) (e : pair × Option node) (c : node)
    (he : elems.get? j = some e) (hc : e.2 = some c) :
    nodeSize c < nodeSize (.mk first elems) := by
  have hmem : e ∈ elems := List.get?_mem he
  have h1 := nodeSizeL_mem elems e hmem
  rw [hc, nodeSizeO] at h1
  rw [nodeSize]
  omega

theorem entriesL_mem_cases : ∀ (l : List (pair × Option node)) (p : pair),
    p ∈ entriesL l → ∃ j, j < l.length ∧
      (p = (elAt l j).1 ∨ p ∈ entriesO (elAt l j).2) := by
  intro l
  induction l with
  | nil => intro p hp; simp [entriesL] at hp
  | cons e rest ih =>
    intro p hp
    rw [entriesL] at hp
    rcases List.mem_cons.mp hp with rfl | hp
    · exact ⟨0, by simp, Or.inl rfl⟩
    · rcases List.mem_append.mp hp with hp | hp
      · exact ⟨0, by simp, Or.inr hp⟩
      · obtain ⟨j, hj, hc⟩ := ih p hp
        exact ⟨j + 1, by simpa using hj, hc⟩

theorem pairwise_mem_cases : ∀ (l : List pair), l.Pairwise ltP →
    ∀ a ∈ l, ∀ b ∈ l, a = b ∨ ltP a b ∨ ltP b a := by
  intro l
  induction l with
  | nil => intro _ a ha; simp at ha
  | cons q rest ih =>
    intro h a ha b hb
    obtain ⟨hq, hrest⟩ := List.pairwise_cons.mp h
    rcases List.mem_cons.mp ha with ha1 | ha2
    · rcases List.mem_cons.mp hb with hb1 | hb2
      · exact Or.inl (by rw [ha1, hb1])
      · refine Or.inr (Or.inl ?_)
        rw [ha1]
        exact hq b hb2
    · rcases List.mem_cons.mp hb with hb1 | hb2
      · refine Or.inr (Or.inr ?_)
        rw [hb1]
        exact hq a ha2
      · exact ih hrest a ha2 b hb2

theorem sorted_unique (l : List pair) (h : l.Pairwise ltP) (a b : pair)
    (ha : a ∈ l) (hb : b ∈ l) (hk : a.Key = b.Key) : a = b := by
  rcases pairwise_mem_cases l h a ha b hb with he | hlt | hlt
  · exact he
  · exact absurd hlt (ltP_irrefl a b hk)
  · exact absurd hlt (ltP_irrefl b a hk.symm)

theorem nodeGet_found :
    ∀ (fuel : Nat) (n : node), nodeSize n < fuel →
      (entriesN n).Pairwise ltP →
      ∀ p ∈ entriesN n, nodeGet fuel n p.Key = .ok p := by
  intro fuel
  induction fuel with
  | zero =>
    intro n h
    omega
  | succ f ih =>
    intro n hfuel hs p hp
    cases n with
    | mk first elems =>
    rw [nodeGet.eq_def]
    simp only []
    rw [entriesN] at hs hp
    have hsF := (List.pairwise_append.mp hs).1
    have hsL := (List.pairwise_append.mp hs).2.1
    have hcross := (List.pairwise_append.mp hs).2.2
    have hks := keys_sorted_of_entriesL elems hsL
    have spec := shouldBe_spec ⟨p.Key, []⟩ elems hks
    by_cases hsb2 : (shouldBe elems ⟨p.Key, []⟩).2 = true
    · rw [if_pos hsb2]
      obtain ⟨hposlen, hkey⟩ := spec.1 hsb2
      rw [elAt_get? elems _ hposlen]
      simp only []
      have hkeq : (elAt elems (shouldBe elems ⟨p.Key, []⟩).1).1.Key = p.Key :=
        (bc_eq_iff _ _).mp hkey
      have hmem1 : (elAt elems (shouldBe elems ⟨p.Key, []⟩).1).1
          ∈ entriesO first ++ entriesL elems :=
        List.mem_append_right _ (elAt_fst_mem elems _ hposlen)
      rw [sorted_unique _ hs _ p hmem1 hp hkeq]
    · have hsb2f : (shouldBe elems ⟨p.Key, []⟩).2 = false := by
        cases hb : (shouldBe elems ⟨p.Key, []⟩).2
        · rfl
        · exact absurd hb hsb2
      rw [if_neg hsb2]
      obtain ⟨hple, hlow, hhigh⟩ := spec.2 hsb2f
      by_cases hp0 : (shouldBe elems ⟨p.Key, []⟩).1 = 0
      · rw [if_pos hp0]
        have hpf : p ∈ entriesO first := by
          rcases List.mem_append.mp hp with hpF | hpL
          · exact hpF
          · exfalso
            have hgt := entriesL_all_gt ⟨p.Key, []⟩ elems hsL
              (fun i hi => hhigh i (by omega) hi) p hpL
            rw [ltP] at hgt
            have hgt2 : bytesCompare p.Key p.Key = -1 := hgt
            rw [bc_refl] at hgt2
            omega
        cases hfc : first with
        | none =>
          subst hfc
          rw [entriesO] at hpf
          exact absurd hpf (by simp)
        | some c =>
          subst hfc
          simp only []
          rw [entriesO] at hpf hsF
          exact ih c (by have := nodeSize_first_lt (some c) elems c rfl; omega)
            hsF p hpf
      · rw [if_neg hp0]
        have hp1len : (shouldBe elems ⟨p.Key, []⟩).1 - 1 < elems.length := by omega
        rw [elAt_get? elems _ hp1len]
        simp only []
        have hploc : p ∈ entriesO (elAt elems
            ((shouldBe elems ⟨p.Key, []⟩).1 - 1)).2 := by
          rcases List.mem_append.mp hp with hpF | hpL
          · exfalso
            have h0len : 0 < elems.length := by omega
            have h1 := hcross p hpF _ (elAt_fst_mem elems 0 h0len)
            have h2 := hlow 0 (by omega) h0len
            exact ltP_asymm _ _ h1 (ltP_key_right _ _ _ h2 rfl)
          · obtain ⟨j, hj, hc⟩ := entriesL_mem_cases elems p hpL
            rcases hc with hc | hc
            · exfalso
              by_cases hjp : j < (shouldBe elems ⟨p.Key, []⟩).1
              · have h2 := hlow j hjp hj
                refine ltP_irrefl _ _ ?_ h2
                rw [← hc]
              · have h2 := hhigh j (by omega) hj
                refine ltP_irrefl _ _ ?_ h2
                rw [← hc]
            · by_cases hjp : j = (shouldBe elems ⟨p.Key, []⟩).1 - 1
              · rw [← hjp]
                exact hc
              · exfalso
                by_cases hjlt : j < (shouldBe elems ⟨p.Key, []⟩).1 - 1
                · have h1 := after_lt_next elems hsL j (by omega) p hc
                  have h2 := hlow (j + 1) (by omega) (by omega)
                  exact ltP_asymm _ _ h1
                    (ltP_key_left _ _ _ (ltP_key_right _ _ _ h2 rfl) rfl)
                  -- p < sep(j+1) and sep(j+1) < x(=p): contradiction
                · have h1 := sep_lt_after elems hsL j hj p hc
                  have h2 := hhigh j (by omega) hj
                  exact ltP_asymm _ _ h1 (ltP_key_left _ _ _ h2 rfl)
        rcases hafter : (elAt elems ((shouldBe elems ⟨p.Key, []⟩).1 - 1)).2
          with _ | c
        · rw [hafter] at hploc
          rw [entriesO] at hploc
          exact absurd hploc (by simp)
        · rw [hafter] at hploc
          simp only []
          rw [entriesO] at hploc
          have hpwc : (entriesN c).Pairwise ltP := by
            have h2 := after_pairwise elems hsL _ _
              (elAt_get? elems ((shouldBe elems ⟨p.Key, []⟩).1 - 1) hp1len)
            rw [hafter, entriesO] at h2
            exact h2
          exact ih c (by
            have := nodeSize_slot_lt first elems _ _ c
              (elAt_get? elems ((shouldBe elems ⟨p.Key, []⟩).1 - 1) hp1len) hafter
            omega) hpwc p hploc

/-! ## From `Put` sequences to `Get`: claim C4 -/

theorem treePut_entries (total : Nat) (t t2 : Option node) (x : pair)
    (hs : (entriesO t).Pairwise ltP)
    (h : treePut total t x = .ok t2) :
    entriesO t2 = insSorted (entriesO t) x := by
  cases t with
  | none =>
    rw [treePut] at h
    injection h with h
    rw [← h]
    simp [entriesO, entriesN, entriesL, insSorted]
  | some root =>
    rw [treePut] at h
    rw [entriesO] at hs
    rcases hrec : putNode total (nodeSize root + 1) root x with pr | m | m
    rotate_left
    · rw [hrec] at h
      exact absurd h (by simp)
    · rw [hrec] at h
      exact absurd h (by simp)
    rw [hrec] at h
    have hent := putNode_entries total (nodeSize root + 1) root x pr hs hrec
    cases pr with
    | one n =>
      simp only [] at h
      injection h with h
      rw [entriesOfPut] at hent
      rw [← h, entriesO, entriesO, hent]
    | split l sep r =>
      simp only [] at h
      injection h with h
      rw [entriesOfPut] at hent
      rw [← h, entriesO, entriesO, ← hent, entriesN]
      simp [entriesO, entriesL]

theorem BTreePut_entries (t t2 : BTree) (x : pair)
    (hs : (entriesO t.root).Pairwise ltP) (h : t.Put x = .ok t2) :
    entriesO t2.root = insSorted (entriesO t.root) x := by
  rw [BTree.Put] at h
  rcases hrec : treePut t.total t.root x with r | m | m
  rotate_left
  · rw [hrec] at h
    exact absurd h (by simp)
  · rw [hrec] at h
    exact absurd h (by simp)
  rw [hrec] at h
  simp only [] at h
  injection h with h
  rw [← h]
  exact treePut_entries t.total t.root r x hs hrec

theorem putAll_entries : ∀ (S : List pair) (t t2 : BTree),
    (entriesO t.root).Pairwise ltP → putAll t S = .ok t2 →
    entriesO t2.root = List.foldl insSorted (entriesO t.root) S ∧
      (entriesO t2.root).Pairwise ltP := by
  intro S
  induction S with
  | nil =>
    intro t t2 hs h
    rw [putAll] at h
    injection h with h
    rw [← h]
    exact ⟨rfl, hs⟩
  | cons x rest ih =>
    intro t t2 hs h
    rw [putAll] at h
    rcases hrec : t.Put x with t1 | m | m
    rotate_left
    · rw [hrec] at h
      exact absurd h (by simp)
    · rw [hrec] at h
      exact absurd h (by simp)
    rw [hrec] at h
    simp only [] at h
    have he1 : entriesO t1.root = insSorted (entriesO t.root) x :=
      BTreePut_entries t t1 x hs hrec
    have hs1 : (entriesO t1.root).Pairwise ltP := by
      rw [he1]
      exact insSorted_sortedE x _ hs
    obtain ⟨ha, hb⟩ := ih t1 t2 hs1 h
    refine ⟨?_, hb⟩
    rw [ha, he1, List.foldl_cons]

/-- First pair with key `k`. -/
def lookupK (l : List pair) (k : List Nat) : Option pair :=
  l.find? (fun p => decide (p.Key = k))

theorem findK_cons_neg (k : List Nat) (a : pair) (l : List pair)
    (h : ¬ a.Key = k) : lookupK (a :: l) k = lookupK l k := by
  simp [lookupK, List.find?_cons, h]

theorem findK_cons_pos (k : List Nat) (a : pair) (l : List pair)
    (h : a.Key = k) : lookupK (a :: l) k = some a := by
  simp [lookupK, List.find?_cons, h]

theorem lookup_insSorted_self (x : pair) :
    ∀ (l : List pair), lookupK (insSorted l x) x.Key = some x := by
  intro l
  induction l with
  | nil =>
    show lookupK [x] x.Key = some x
    rw [findK_cons_pos x.Key x [] rfl]
  | cons p rest ih =>
    rw [insSorted]
    by_cases h0 : bytesCompare x.Key p.Key = 0
    · rw [if_pos h0]
      rw [findK_cons_pos x.Key x rest rfl]
    · rw [if_neg h0]
      by_cases h1 : bytesCompare x.Key p.Key = -1
      · rw [if_pos h1]
        rw [findK_cons_pos x.Key x (p :: rest) rfl]
      · rw [if_neg h1]
        have hne : ¬ p.Key = x.Key := by
          intro hc
          rw [show x.Key = p.Key from hc.symm, bc_refl] at h0
          exact h0 rfl
        rw [findK_cons_neg x.Key p _ hne]
        exact ih

theorem lookup_insSorted_other (x : pair) (k : List Nat) (hk : ¬ k = x.Key) :
    ∀ (l : List pair), lookupK (insSorted l x) k = lookupK l k := by
  have hxk : ¬ x.Key = k := fun hc => hk hc.symm
  intro l
  induction l with
  | nil =>
    show lookupK [x] k = lookupK [] k
    rw [findK_cons_neg k x [] hxk]
  | cons p rest ih =>
    rw [insSorted]
    by_cases h0 : bytesCompare x.Key p.Key = 0
    · rw [if_pos h0]
      have hpk : x.Key = p.Key := (bc_eq_iff x.Key p.Key).mp h0
      have hpkn : ¬ p.Key = k := by
        intro hc
        rw [← hc] at hxk
        exact hxk hpk
      rw [findK_cons_neg k x rest hxk, findK_cons_neg k p rest hpkn]
    · rw [if_neg h0]
      by_cases h1 : bytesCompare x.Key p.Key = -1
      · rw [if_pos h1]
        rw [findK_cons_neg k x (p :: rest) hxk]
      · rw [if_neg h1]
        by_cases hpk : p.Key = k
        · rw [findK_cons_pos k p _ hpk, findK_cons_pos k p _ hpk]
        · rw [findK_cons_neg k p _ hpk, findK_cons_neg k p _ hpk]
          exact ih

theorem lastIns_cons (x : pair) (S : List pair) (k : List Nat) :
    lastIns (x :: S) k = match lastIns S k with
      | some p => some p
      | none => if x.Key = k then some x else none := by
  rw [lastIns, List.reverse_cons, List.find?_append]
  cases hfind : List.find? (fun p => decide (p.Key = k)) S.reverse with
  | some p =>
    rw [show lastIns S k = some p from by rw [lastIns, hfind]]
    rfl
  | none =>
    rw [show lastIns S k = none from by rw [lastIns, hfind]]
    by_cases hx : x.Key = k
    · simp [List.find?, hx, Option.or]
    · simp [List.find?, hx, Option.or]

theorem lookup_foldl (k : List Nat) :
    ∀ (S : List pair) (acc : List pair),
      lookupK (List.foldl insSorted acc S) k
        = match lastIns S k with
          | some p => some p
          | none => lookupK acc k := by
  intro S
  induction S with
  | nil =>
    intro acc
    rw [show lastIns [] k = none from rfl]
    rfl
  | cons x rest ih =>
    intro acc
    rw [List.foldl_cons, ih (insSorted acc x), lastIns_cons]
    cases hl : lastIns rest k with
    | some p => rfl
    | none =>
      by_cases hx : x.Key = k
      · rw [if_pos hx]
        simp only []
        rw [← hx]
        exact lookup_insSorted_self x acc
      · rw [if_neg hx]
        simp only []
        exact lookup_insSorted_other x k (fun hc => hx hc.symm) acc

/-- C4: for every sequence `S` of pairs inserted by successful `Put`
calls into a `NewTree`, and every key `k` occurring in `S`, `Get(k)`
succeeds and returns exactly the most recently inserted pair with key
`k` — in particular the returned element compares equal (key comparison
0) to the inserted one. -/
theorem C4_thm (total : Nat) (S : List pair) (t : BTree) (k : List Nat) (p : pair)
    (hrun : putAll (NewTree total) S = .ok t)
    (hlast : lastIns S k = some p) :
    t.Get k = .ok p ∧ bytesCompare p.Key k = 0 := by
  have hbase : (entriesO (NewTree total).root).Pairwise ltP := by
    simp [NewTree, entriesO]
  obtain ⟨hent, hsorted⟩ := putAll_entries S (NewTree total) t hbase hrun
  have hlook : lookupK (entriesO t.root) k = some p := by
    rw [hent, lookup_foldl k S (entriesO (NewTree total).root), hlast]
  rw [lookupK] at hlook
  have hpmem : p ∈ entriesO t.root := List.mem_of_find?_eq_some hlook
  have hfp := List.find?_some hlook
  simp only [decide_eq_true_eq] at hfp
  have hpkey : p.Key = k := hfp
  refine ⟨?_, by rw [hpkey, bc_refl]⟩
  cases hroot : t.root with
  | none =>
    rw [hroot] at hpmem
    rw [entriesO] at hpmem
    exact absurd hpmem (by simp)
  | some root =>
    rw [BTree.Get, hroot]
    simp only []
    rw [hroot] at hpmem hsorted
    rw [entriesO] at hpmem hsorted
    have hget := nodeGet_found (nodeSize root + 1) root (by omega) hsorted p hpmem
    rw [← hpkey]
    exact hget

def treeOf : Res BTree → BTree
  | .ok t => t
  | _ => NewTree 0

def c4S : List pair := [⟨[97, 97], [49]⟩, ⟨[98, 98], [50]⟩, ⟨[97, 97], [51]⟩]

def c4T : BTree := treeOf (putAll (NewTree 100) c4S)

set_option maxRecDepth 10000 in
/-- C4 (witness): the theorem instantiated on `NewTree(100)` with the
sequence "aa"→"1", "bb"→"2", "aa"→"3" and key "aa": `Get` returns the
most recent pair "aa"→"3". -/
theorem C4_witness :
    putAll (NewTree 100) c4S = .ok c4T ∧
    lastIns c4S [97, 97] = some ⟨[97, 97], [51]⟩ ∧
    ((treeOf (putAll (NewTree 100) c4S)).Get [97, 97] = .ok ⟨[97, 97], [51]⟩ ∧
      bytesCompare (pair.mk [97, 97] [51]).Key [97, 97] = 0) :=
  ⟨by rfl, by rfl,
   C4_thm 100 c4S c4T [97, 97] ⟨[97, 97], [51]⟩ (by rfl) (by rfl)⟩

end Inf
